import Mathlib

/-!
Verification of the Deduplicator repository (`deduplicator.py`).

The Python program is shallowly embedded: paths and digests are byte
strings (`List Nat`), `os.stat` and the two hash providers (`fast_hash`,
`sha1`) are oracles passed as function parameters (they perform file I/O
in the original), Python's insertion-ordered `defaultdict(list)` becomes
an association list updated by `upsert`, and the filesystem mutated by
`hardlink` (`os.rename` / `os.link` / `os.unlink`) becomes an explicit
`FS` state with an operation counter and a success oracle modelling
externally caused failures (each syscall may raise).
-/

/-- A filesystem path: an opaque byte string (`fsencode`d). -/
abbrev FName : Type := List Nat

/-- A hash digest: a byte string as returned by `h.digest()`. -/
abbrev Digest : Type := List Nat

/-- Result of one `os.stat` call, the fields the program reads. -/
structure StatInfo where
  st_mode : Nat
  st_ino : Nat
  st_dev : Nat
  st_nlink : Nat
  st_size : Nat
deriving DecidableEq, Repr

/-- `stat.S_ISREG`: the file-type bits (mask `0o170000`) equal `0o100000`. -/
def S_ISREG (mode : Nat) : Bool := decide ((mode / 4096) % 16 = 8)

/-- `stat.S_ISLNK`: the file-type bits (mask `0o170000`) equal `0o120000`. -/
def S_ISLNK (mode : Nat) : Bool := decide ((mode / 4096) % 16 = 10)

/-- `FileInfo`: filename plus the stat information taken at construction. -/
structure FileInfo where
  filename : FName
  stat : StatInfo
deriving DecidableEq, Repr

/-- `FileInfo.regular_file`: regular file and not a symbolic link. -/
def FileInfo.regular_file (f : FileInfo) : Bool :=
  S_ISREG f.stat.st_mode && !S_ISLNK f.stat.st_mode

/-- `stat_files`: produce a `FileInfo` for every path whose stat succeeds
and which is a regular non-empty file; a failed stat (the oracle returns
`none`, modelling `OSError`) is skipped with a diagnostic naming the path
(second component).  Zero-size and non-regular entries are skipped
silently. -/
def stat_files (statFn : FName → Option StatInfo) : List FName → List FileInfo × List FName
  | [] => ([], [])
  | p :: rest =>
    let r := stat_files statFn rest
    match statFn p with
    | none => (r.1, p :: r.2)
    | some s =>
      if FileInfo.regular_file ⟨p, s⟩ && decide (s.st_size ≠ 0) then (⟨p, s⟩ :: r.1, r.2)
      else (r.1, r.2)

/-- Insert values `vs` into the bucket of key `k`, appending to an existing
bucket or creating a new bucket at the end: the behaviour of Python's
insertion-ordered `defaultdict(list)` under `d[k].append(v)` /
`d[k].extend(vs)`. -/
def upsert {κ β : Type} [DecidableEq κ] (m : List (κ × List β)) (k : κ) (vs : List β) :
    List (κ × List β) :=
  match m with
  | [] => [(k, vs)]
  | (k2, b) :: rest => if k2 = k then (k2, b ++ vs) :: rest else (k2, b) :: upsert rest k vs

/-- Fold a selection function over items, upserting each selected
key/values contribution; items with `sel it = none` are skipped.  This is
the generic form of the grouping loops in the program. -/
def upsertFold {α κ β : Type} [DecidableEq κ] (sel : α → Option (κ × List β))
    (m : List (κ × List β)) : List α → List (κ × List β)
  | [] => m
  | it :: rest =>
    match sel it with
    | none => upsertFold sel m rest
    | some (k, vs) => upsertFold sel (upsert m k vs) rest

/-- `group_by(files, key)`: partition into buckets keyed by `key`, buckets
in key-first-occurrence order, members in input order. -/
def group_by {κ : Type} [DecidableEq κ] (files : List FileInfo) (key : FileInfo → κ) :
    List (κ × List FileInfo) :=
  upsertFold (fun f => some (key f, [f])) [] files

/-- `filter_solo`: keep only groups with more than one member. -/
def filter_solo (items : List (List FileInfo)) : List (List FileInfo) :=
  items.filter (fun i => decide (1 < i.length))

/-- `group_by_size`: the values of `group_by` keyed by `st_size`. -/
def group_by_size (files : List FileInfo) : List (List FileInfo) :=
  (group_by files (fun f => f.stat.st_size)).map (·.2)

/-- `group_by_dev`: the values of `group_by` keyed by `st_dev`. -/
def group_by_dev (files : List FileInfo) : List (List FileInfo) :=
  (group_by files (fun f => f.stat.st_dev)).map (·.2)

/-- Result of `group_by_hash`, instrumented: the returned groups, the
diagnostics (`same_inode[0]` of every class whose hash raised `IOError`),
and the filenames passed to the hash function (every invocation, whether
it succeeded or raised). -/
structure GBH where
  groups : List (List FileInfo)
  diags : List FileInfo
  calls : List FName
deriving DecidableEq, Repr

/-- The `(st_ino, st_dev)` equivalence classes of `files`: the values of
`group_by` keyed by that pair. -/
def by_dev_inode (files : List FileInfo) : List (List FileInfo) :=
  (group_by files (fun f => (f.stat.st_ino, f.stat.st_dev))).map (·.2)

/-- Hash one representative (`same_inode[0]`) of an inode class: the
selection step of the `by_hash` loop.  `none` covers both the empty class
(unreachable) and a hash provider raising `IOError`. -/
def gbhSel (h : FName → Option Digest) (c : List FileInfo) :
    Option (Digest × List FileInfo) :=
  match c with
  | [] => none
  | rep :: _ =>
    match h rep.filename with
    | some d => some (d, c)
    | none => none

/-- `group_by_hash(files, hash_function)`: partition by `(st_ino, st_dev)`;
with at most one class return `[files]` untouched (inode short-circuit,
no hash call); otherwise hash one representative per class (`none`
models `IOError`) and merge classes with equal digests, dropping a class
whose representative cannot be hashed. -/
def group_by_hash (files : List FileInfo) (h : FName → Option Digest) : GBH :=
  if (by_dev_inode files).length ≤ 1 then ⟨[files], [], []⟩
  else
    let by_hash := upsertFold (gbhSel h) [] (by_dev_inode files)
    let ds := (by_dev_inode files).filterMap
      (fun c => match c with
        | [] => none
        | rep :: _ => match h rep.filename with
          | some _ => none
          | none => some rep)
    let cs := (by_dev_inode files).filterMap
      (fun c => match c with
        | [] => none
        | rep :: _ => some rep.filename)
    ⟨by_hash.map (·.2), ds, cs⟩

/-- `group_compose(data, functions)`: apply each grouping function to every
current group, flattening the results and dropping singleton groups
after every stage. -/
def group_compose (data : List (List FileInfo)) :
    List (List FileInfo → List (List FileInfo)) → List (List FileInfo)
  | [] => data
  | f :: fs => group_compose ((data.map (fun i => filter_solo (f i))).flatten) fs

/-- `deduplicate(filenames)`: stat all paths, then group by size, by fast
hash and by full (sha1) hash, dropping singletons after every stage.  The
stat and hash providers are oracles. -/
def deduplicate (statFn : FName → Option StatInfo) (fastH shaH : FName → Option Digest)
    (filenames : List FName) : List (List FileInfo) :=
  group_compose [(stat_files statFn filenames).1]
    [group_by_size,
     fun x => (group_by_hash x fastH).groups,
     fun x => (group_by_hash x shaH).groups]

/-- Lookup of the first entry with the given key. -/
def alookup {κ β : Type} [DecidableEq κ] (m : List (κ × β)) (k : κ) : Option β :=
  match m with
  | [] => none
  | (k1, v) :: rest => if k1 = k then some v else alookup rest k

/-- The keys of an association list, in order. -/
def keysOf {κ β : Type} (m : List (κ × β)) : List κ := m.map (·.1)

/-- The concatenated contributions with key `k` that `sel` selects from
`items`, in order. -/
def selVals {α κ β : Type} [DecidableEq κ] (sel : α → Option (κ × List β)) (k : κ)
    (items : List α) : List β :=
  items.flatMap (fun it => match sel it with
    | some (k2, vs) => if k2 = k then vs else []
    | none => [])

/-- Whether some item selects key `k`. -/
def selHit {α κ β : Type} [DecidableEq κ] (sel : α → Option (κ × List β)) (k : κ)
    (items : List α) : Bool :=
  items.any (fun it => match sel it with
    | some (k2, _) => decide (k2 = k)
    | none => false)

/-- Example stat oracle: two distinct regular files of equal size. -/
def exStat : FName → Option StatInfo := fun p =>
  if p = [1] then some ⟨33188, 11, 5, 1, 100⟩
  else if p = [2] then some ⟨33188, 12, 5, 1, 100⟩
  else none

/-- Example partial-hash oracle, constant. -/
def exFast : FName → Option Digest := fun _ => some [9]

/-- Example full-hash oracle, constant. -/
def exSha : FName → Option Digest := fun _ => some [7]

/-- Example full-hash oracle failing on path `[1]`. -/
def exShaF : FName → Option Digest := fun p => if p = [1] then none else some [7]

def exF1 : FileInfo := ⟨[1], ⟨33188, 11, 5, 1, 100⟩⟩

def exF2 : FileInfo := ⟨[2], ⟨33188, 12, 5, 1, 100⟩⟩

def exG1 : FileInfo := ⟨[3], ⟨33188, 21, 5, 2, 100⟩⟩

def exG2 : FileInfo := ⟨[4], ⟨33188, 21, 5, 2, 100⟩⟩

/-- A filesystem operation issued by `hardlink`. -/
inductive FsOp where
  | rename : FName → FName → FsOp
  | link : FName → FName → FsOp
  | unlink : FName → FsOp
deriving DecidableEq, Repr

/-- Filesystem state: path-to-inode table and inode-to-content table. -/
structure FS where
  names : List (FName × Nat)
  data : List (Nat × List Nat)
deriving DecidableEq, Repr

/-- Remove all entries for path `p`. -/
def aerase {β : Type} (m : List (FName × β)) (p : FName) : List (FName × β) :=
  m.filter (fun e => decide (e.1 ≠ p))

/-- Apply one operation, `none` when its precondition fails (the syscall
would raise): `rename` moves an existing name (silently replacing the
destination, as POSIX rename does), `link` creates a fresh name for an
existing source inode, `unlink` removes an existing name. -/
def applyOp (fs : FS) : FsOp → Option FS
  | .rename a b =>
    match alookup fs.names a with
    | none => none
    | some i => some ⟨aerase (aerase fs.names a) b ++ [(b, i)], fs.data⟩
  | .link a b =>
    match alookup fs.names a, alookup fs.names b with
    | some i, none => some ⟨fs.names ++ [(b, i)], fs.data⟩
    | _, _ => none
  | .unlink a =>
    match alookup fs.names a with
    | none => none
    | some _ => some ⟨aerase fs.names a, fs.data⟩

/-- Attempt one operation at counter position `ctr`: it succeeds only when
the failure oracle allows it and its precondition holds. -/
def tryExec (oracle : Nat → Bool) (fs : FS) (ctr : Nat) (op : FsOp) : Option FS :=
  if oracle ctr then applyOp fs op else none

/-- The `".bak"` suffix appended to the target's filename. -/
def bakSuffix : FName := [46, 98, 97, 107]

/-- Result of one `hardlink` call: whether it returned normally, the byte
count it returned, the filesystem afterwards, the next counter value, the
successfully executed operations, and the state after each of them. -/
structure HLResult where
  ok : Bool
  bytes : Nat
  fs : FS
  ctr : Nat
  exec : List FsOp
  states : List FS
deriving DecidableEq, Repr

/-- `hardlink(src, dest, dry_run)`: assert same device, then (unless a dry
run) rename `dest` to `dest + ".bak"`, link `src` to `dest`, unlink the
backup, stopping at the first failing step (the exception propagates); on
normal return the byte count is `dest`'s size. -/
def hardlink (src dest : FileInfo) (dry_run : Bool) (oracle : Nat → Bool) (fs : FS)
    (ctr : Nat) : HLResult :=
  if src.stat.st_dev ≠ dest.stat.st_dev then ⟨false, 0, fs, ctr, [], []⟩
  else if dry_run then ⟨true, dest.stat.st_size, fs, ctr, [], []⟩
  else
    let bak := dest.filename ++ bakSuffix
    let o1 := FsOp.rename dest.filename bak
    match tryExec oracle fs ctr o1 with
    | none => ⟨false, 0, fs, ctr + 1, [], []⟩
    | some fs1 =>
      let o2 := FsOp.link src.filename dest.filename
      match tryExec oracle fs1 (ctr + 1) o2 with
      | none => ⟨false, 0, fs1, ctr + 2, [o1], [fs1]⟩
      | some fs2 =>
        let o3 := FsOp.unlink bak
        match tryExec oracle fs2 (ctr + 2) o3 with
        | none => ⟨false, 0, fs2, ctr + 3, [o1, o2], [fs1, fs2]⟩
        | some fs3 => ⟨true, dest.stat.st_size, fs3, ctr + 3, [o1, o2, o3], [fs1, fs2, fs3]⟩

/-- Result of a consolidation run: accumulated byte count, final
filesystem, next counter, the per-target log `(master, target, ok)` in
processing order, the executed operations, the intermediate states, and
the chosen survivor (when one was chosen). -/
structure MHD where
  bytes : Nat
  fs : FS
  ctr : Nat
  log : List (FileInfo × FileInfo × Bool)
  exec : List FsOp
  states : List FS
  survivor : Option FileInfo
deriving DecidableEq, Repr

/-- The inner loops of `make_hardlinks_within_device`: hardlink every
target to the master in order; a failed replacement is logged (the
diagnostic names master and target) and processing continues. -/
def runTargets (master : FileInfo) (dry_run : Bool) (oracle : Nat → Bool) :
    List FileInfo → FS → Nat → MHD
  | [], fs, ctr => ⟨0, fs, ctr, [], [], [], some master⟩
  | t :: rest, fs, ctr =>
    let r := hardlink master t dry_run oracle fs ctr
    let w := runTargets master dry_run oracle rest r.fs r.ctr
    ⟨(if r.ok then r.bytes else 0) + w.bytes, w.fs, w.ctr, (master, t, r.ok) :: w.log,
      r.exec ++ w.exec, r.states ++ w.states, some master⟩

/-- `max(files, key=lambda f: f.stat.st_nlink)`: Python's `max` keeps the
first element among those with the maximal key. -/
def pyMaxNlink : List FileInfo → Option FileInfo
  | [] => none
  | x :: xs =>
    some (xs.foldl (fun acc f => if f.stat.st_nlink > acc.stat.st_nlink then f else acc) x)

/-- The targets of a consolidation: members of every inode bucket other
than the master's, in bucket order (the loop `for inode in by_inode` with
the master's bucket skipped by `continue`). -/
def consolidationTargets (files : List FileInfo) (masterIno : Nat) : List FileInfo :=
  (((group_by files (fun f => f.stat.st_ino)).filter
    (fun kv => decide (kv.1 ≠ masterIno))).map (·.2)).flatten

/-- `make_hardlinks_within_device(files, dry_run)`: group by inode; with at
most one inode there is nothing to do (return 0, no mutation); otherwise
choose the most-linked member as master and hardlink every member of
every other inode bucket to it.  (`pyMaxNlink` returns `none` only for
empty input, which cannot reach the `else` branch.) -/
def make_hardlinks_within_device (files : List FileInfo) (dry_run : Bool)
    (oracle : Nat → Bool) (fs : FS) (ctr : Nat) : MHD :=
  if (group_by files (fun f => f.stat.st_ino)).length ≤ 1 then
    ⟨0, fs, ctr, [], [], [], none⟩
  else
    match pyMaxNlink files with
    | none => ⟨0, fs, ctr, [], [], [], none⟩
    | some master =>
      runTargets master dry_run oracle (consolidationTargets files master.stat.st_ino) fs ctr

/-- The outer loop of `make_hardlinks` over the non-singleton device
groups, threading the filesystem and counter and summing byte counts. -/
def mhAux (dry_run : Bool) (oracle : Nat → Bool) :
    List (List FileInfo) → FS → Nat → MHD
  | [], fs, ctr => ⟨0, fs, ctr, [], [], [], none⟩
  | g :: gs, fs, ctr =>
    let r := make_hardlinks_within_device g dry_run oracle fs ctr
    let w := mhAux dry_run oracle gs r.fs r.ctr
    ⟨r.bytes + w.bytes, w.fs, w.ctr, r.log ++ w.log, r.exec ++ w.exec,
      r.states ++ w.states, none⟩

/-- `make_hardlinks(files, dry_run)`: partition by device, drop singleton
partitions, and consolidate each device partition independently, summing
the reclaimed byte counts. -/
def make_hardlinks (files : List FileInfo) (dry_run : Bool) (oracle : Nat → Bool)
    (fs : FS) (ctr : Nat) : MHD :=
  mhAux dry_run oracle (filter_solo (group_by_dev files)) fs ctr

/-- Example filesystem matching `exF1`, `exF2`: both files exist with
identical content under their stat inodes. -/
def exFs : FS := ⟨[([1], 11), ([2], 12)], [(11, [7, 7]), (12, [7, 7])]⟩

/-- Oracle under which every syscall is allowed to proceed. -/
def oracleT : Nat → Bool := fun _ => true

/-- Oracle failing the very first syscall. -/
def oracleF0 : Nat → Bool := fun n => decide (n ≠ 0)

/-- The content reachable through a path: the data of the inode the path
names. -/
def pathContent (fs : FS) (p : FName) : Option (List Nat) :=
  match alookup fs.names p with
  | none => none
  | some i => alookup fs.data i

/-- Every file content reachable through some path before remains
reachable through some path after. -/
def contentsPreserved (fs0 fs1 : FS) : Prop :=
  ∀ c p, pathContent fs0 p = some c → ∃ q, pathContent fs1 q = some c

/-- Safety contract of one non-dry replacement: only (a prefix of) the
sequence rename-to-backup, link-to-survivor, unlink-backup is executed,
in that order (so the rename precedes the link and the only removal is of
the backup, after the link succeeded); every intermediate and final state
still reaches every content reachable before, so no last remaining copy
of any content is ever removed; and on failure at any step after the
backup was created, the backup name still maps to the target's old
inode. -/
def hardlinkSafe (src dest : FileInfo) (oracle : Nat → Bool) (fs : FS) (ctr : Nat)
    (i_d : Nat) : Prop :=
  ((hardlink src dest false oracle fs ctr).exec = [] ∨
    (hardlink src dest false oracle fs ctr).exec =
      [FsOp.rename dest.filename (dest.filename ++ bakSuffix)] ∨
    (hardlink src dest false oracle fs ctr).exec =
      [FsOp.rename dest.filename (dest.filename ++ bakSuffix),
       FsOp.link src.filename dest.filename] ∨
    (hardlink src dest false oracle fs ctr).exec =
      [FsOp.rename dest.filename (dest.filename ++ bakSuffix),
       FsOp.link src.filename dest.filename,
       FsOp.unlink (dest.filename ++ bakSuffix)]) ∧
  (∀ st ∈ (hardlink src dest false oracle fs ctr).states, contentsPreserved fs st) ∧
  contentsPreserved fs (hardlink src dest false oracle fs ctr).fs ∧
  ((hardlink src dest false oracle fs ctr).ok = false →
    FsOp.rename dest.filename (dest.filename ++ bakSuffix) ∈
      (hardlink src dest false oracle fs ctr).exec →
    alookup (hardlink src dest false oracle fs ctr).fs.names
      (dest.filename ++ bakSuffix) = some i_d)

def exF2b : FileInfo := ⟨[2], ⟨33188, 11, 5, 2, 100⟩⟩

theorem alookup_eq_none {κ β : Type} [DecidableEq κ] {m : List (κ × β)} {k : κ} :
    alookup m k = none ↔ k ∉ keysOf m := by
  induction m with
  | nil => simp [alookup, keysOf]
  | cons hd tl ih =>
    cases hd with
    | mk k1 v1 =>
      by_cases h : k1 = k
      · subst h
        simp [alookup, keysOf]
      · simp [alookup, keysOf, h, Ne.symm h] at ih ⊢
        exact ih

theorem mem_keysOf {κ β : Type} {m : List (κ × β)} {k : κ} {b : β} (h : (k, b) ∈ m) :
    k ∈ keysOf m := by
  simp only [keysOf, List.mem_map]
  exact ⟨(k, b), h, rfl⟩

theorem mem_iff_alookup {κ β : Type} [DecidableEq κ] {m : List (κ × β)} {k : κ} {b : β}
    (hnd : (keysOf m).Nodup) : (k, b) ∈ m ↔ alookup m k = some b := by
  induction m with
  | nil => simp [alookup]
  | cons hd tl ih =>
    cases hd with
    | mk k1 v1 =>
      have hnd1 : (k1 :: keysOf tl).Nodup := by simpa [keysOf] using hnd
      have hk1tl : k1 ∉ keysOf tl := (List.nodup_cons.mp hnd1).1
      have hndtl : (keysOf tl).Nodup := (List.nodup_cons.mp hnd1).2
      by_cases h : k1 = k
      · subst h
        rw [show alookup ((k1, v1) :: tl) k1 = some v1 by simp [alookup]]
        simp only [List.mem_cons, Prod.mk.injEq, true_and, Option.some.injEq]
        constructor
        · rintro (rfl | hmem)
          · rfl
          · exact absurd (mem_keysOf hmem) hk1tl
        · rintro rfl
          exact Or.inl rfl
      · rw [show alookup ((k1, v1) :: tl) k = alookup tl k by simp [alookup, h]]
        rw [← ih hndtl]
        simp only [List.mem_cons, Prod.mk.injEq, or_iff_right_iff_imp]
        rintro ⟨rfl, _⟩
        exact absurd rfl h

theorem alookup_upsert {κ β : Type} [DecidableEq κ] (m : List (κ × List β)) (k k2 : κ)
    (vs : List β) :
    alookup (upsert m k vs) k2 =
      if k2 = k then some ((alookup m k).getD [] ++ vs) else alookup m k2 := by
  induction m with
  | nil =>
    by_cases h : k2 = k
    · subst h
      simp [upsert, alookup]
    · simp [upsert, alookup, h, Ne.symm h]
  | cons hd tl ih =>
    cases hd with
    | mk k1 b1 =>
      by_cases h1 : k1 = k
      · subst h1
        by_cases h2 : k2 = k1
        · subst h2
          simp [upsert, alookup]
        · simp [upsert, alookup, h2, Ne.symm h2]
      · by_cases h2 : k1 = k2
        · subst h2
          simp [upsert, alookup, h1, Ne.symm h1]
        · simp [upsert, alookup, h1, h2, ih]

theorem keysOf_upsert {κ β : Type} [DecidableEq κ] (m : List (κ × List β)) (k : κ)
    (vs : List β) :
    keysOf (upsert m k vs) = if k ∈ keysOf m then keysOf m else keysOf m ++ [k] := by
  induction m with
  | nil => simp [upsert, keysOf]
  | cons hd tl ih =>
    cases hd with
    | mk k1 b1 =>
      by_cases h1 : k1 = k
      · subst h1
        simp [upsert, keysOf]
      · have h1x : ¬ k = k1 := Ne.symm h1
        by_cases h2 : k ∈ keysOf tl
        · rw [show upsert ((k1, b1) :: tl) k vs = (k1, b1) :: upsert tl k vs by
            simp [upsert, h1]]
          rw [show keysOf ((k1, b1) :: upsert tl k vs) = k1 :: keysOf (upsert tl k vs) by
            simp [keysOf]]
          rw [ih]
          simp only [keysOf] at h2
          simp [keysOf, h2]
        · rw [show upsert ((k1, b1) :: tl) k vs = (k1, b1) :: upsert tl k vs by
            simp [upsert, h1]]
          rw [show keysOf ((k1, b1) :: upsert tl k vs) = k1 :: keysOf (upsert tl k vs) by
            simp [keysOf]]
          rw [ih]
          simp only [keysOf] at h2
          simp [keysOf, h2, h1x]

theorem nodup_keysOf_upsert {κ β : Type} [DecidableEq κ] {m : List (κ × List β)} {k : κ}
    {vs : List β} (hnd : (keysOf m).Nodup) : (keysOf (upsert m k vs)).Nodup := by
  rw [keysOf_upsert]
  by_cases h : k ∈ keysOf m
  · simpa [h] using hnd
  · simp only [h, if_false]
    refine List.Nodup.append hnd (List.nodup_singleton k) ?_
    intro a ha hak
    rw [List.mem_singleton] at hak
    exact h (hak ▸ ha)

theorem alookup_upsertFold {α κ β : Type} [DecidableEq κ] (sel : α → Option (κ × List β))
    (m : List (κ × List β)) (items : List α) (k : κ) :
    alookup (upsertFold sel m items) k =
      if (alookup m k).isNone = true ∧ selHit sel k items = false then none
      else some ((alookup m k).getD [] ++ selVals sel k items) := by
  induction items generalizing m with
  | nil =>
    cases h : alookup m k with
    | none => simp [upsertFold, selHit, selVals, h]
    | some b => simp [upsertFold, selHit, selVals, h]
  | cons it rest ih =>
    cases hsel : sel it with
    | none =>
      rw [show upsertFold sel m (it :: rest) = upsertFold sel m rest by
        simp [upsertFold, hsel]]
      rw [ih m]
      have h1 : selHit sel k (it :: rest) = selHit sel k rest := by
        simp [selHit, hsel]
      have h2 : selVals sel k (it :: rest) = selVals sel k rest := by
        simp [selVals, hsel]
      rw [h1, h2]
    | some kv =>
      cases kv with
      | mk k1 vs1 =>
        rw [show upsertFold sel m (it :: rest) = upsertFold sel (upsert m k1 vs1) rest by
          simp [upsertFold, hsel]]
        rw [ih (upsert m k1 vs1), alookup_upsert]
        by_cases hk : k = k1
        · subst hk
          have h2 : selVals sel k (it :: rest) = vs1 ++ selVals sel k rest := by
            simp [selVals, hsel]
          have h3 : selHit sel k (it :: rest) = true := by
            simp [selHit, hsel]
          rw [if_pos rfl, h2, h3]
          have h4 : ¬ ((some ((alookup m k).getD [] ++ vs1)).isNone = true ∧
              selHit sel k rest = false) := by simp
          rw [if_neg h4]
          have h5 : ¬ ((alookup m k).isNone = true ∧ (true : Bool) = false) := by simp
          rw [if_neg h5]
          simp [List.append_assoc]
        · have hk1x : ¬ k1 = k := fun hh => hk hh.symm
          rw [if_neg hk]
          have h2 : selVals sel k (it :: rest) = selVals sel k rest := by
            simp only [selVals, List.flatMap_cons, hsel]
            simp [hk1x]
          have h3 : selHit sel k (it :: rest) = selHit sel k rest := by
            simp only [selHit, List.any_cons, hsel]
            simp [hk1x]
          rw [h2, h3]

theorem nodup_keysOf_upsertFold {α κ β : Type} [DecidableEq κ]
    (sel : α → Option (κ × List β)) (m : List (κ × List β)) (items : List α)
    (hnd : (keysOf m).Nodup) : (keysOf (upsertFold sel m items)).Nodup := by
  induction items generalizing m with
  | nil => exact hnd
  | cons it rest ih =>
    cases hsel : sel it with
    | none =>
      rw [show upsertFold sel m (it :: rest) = upsertFold sel m rest by
        simp [upsertFold, hsel]]
      exact ih m hnd
    | some kv =>
      cases kv with
      | mk k1 vs1 =>
        rw [show upsertFold sel m (it :: rest) = upsertFold sel (upsert m k1 vs1) rest by
          simp [upsertFold, hsel]]
        exact ih _ (nodup_keysOf_upsert hnd)

theorem keysOf_mem_exists {κ β : Type} {m : List (κ × β)} {k : κ} (h : k ∈ keysOf m) :
    ∃ b, (k, b) ∈ m := by
  simp only [keysOf, List.mem_map] at h
  obtain ⟨⟨k1, b⟩, hmem, rfl⟩ := h
  exact ⟨b, hmem⟩

theorem nodup_keysOf_group_by {κ : Type} [DecidableEq κ] (files : List FileInfo)
    (key : FileInfo → κ) : (keysOf (group_by files key)).Nodup :=
  nodup_keysOf_upsertFold _ [] files (by simp [keysOf])

theorem group_by_alookup {κ : Type} [DecidableEq κ] (files : List FileInfo)
    (key : FileInfo → κ) (k : κ) :
    alookup (group_by files key) k =
      if files.filter (fun f => decide (key f = k)) = [] then none
      else some (files.filter (fun f => decide (key f = k))) := by
  unfold group_by
  rw [alookup_upsertFold]
  have hsv : selVals (fun f => some (key f, [f])) k files =
      files.filter (fun f => decide (key f = k)) := by
    induction files with
    | nil => simp [selVals]
    | cons f rest ih =>
      by_cases h : key f = k
      · simp only [selVals, List.flatMap_cons] at ih ⊢
        simp [h, List.filter_cons, ih]
      · simp only [selVals, List.flatMap_cons] at ih ⊢
        simp [h, List.filter_cons, ih]
  have hsh : selHit (fun f => some (key f, [f])) k files = false ↔
      files.filter (fun f => decide (key f = k)) = [] := by
    simp [selHit, List.any_eq_false, List.filter_eq_nil_iff]
  by_cases hc : files.filter (fun f => decide (key f = k)) = []
  · rw [if_pos ⟨by simp [alookup], hsh.mpr hc⟩, if_pos hc]
  · rw [if_neg (by
      rintro ⟨_, hfalse⟩
      exact hc (hsh.mp hfalse)), if_neg hc]
    simp [alookup, hsv]

theorem group_by_mem {κ : Type} [DecidableEq κ] {files : List FileInfo}
    {key : FileInfo → κ} {k : κ} {b : List FileInfo} :
    (k, b) ∈ group_by files key ↔
      b = files.filter (fun f => decide (key f = k)) ∧ b ≠ [] := by
  rw [mem_iff_alookup (nodup_keysOf_group_by files key), group_by_alookup]
  by_cases hc : files.filter (fun f => decide (key f = k)) = []
  · rw [if_pos hc]
    constructor
    · intro h
      exact absurd h (by simp)
    · rintro ⟨rfl, hne⟩
      exact absurd hc hne
  · rw [if_neg hc]
    constructor
    · intro h
      have hb : files.filter (fun f => decide (key f = k)) = b := Option.some.inj h
      exact ⟨hb.symm, fun hnil => hc (hb.trans hnil)⟩
    · rintro ⟨rfl, _⟩
      rfl

theorem group_by_bucket_mem {κ : Type} [DecidableEq κ] {files : List FileInfo}
    {key : FileInfo → κ} {k : κ} {b : List FileInfo} (hb : (k, b) ∈ group_by files key)
    {f : FileInfo} (hf : f ∈ b) : key f = k ∧ f ∈ files := by
  obtain ⟨rfl, -⟩ := group_by_mem.mp hb
  rw [List.mem_filter] at hf
  exact ⟨by simpa using hf.2, hf.1⟩

theorem group_by_cover {κ : Type} [DecidableEq κ] {files : List FileInfo}
    (key : FileInfo → κ) {f : FileInfo} (hf : f ∈ files) :
    ∃ b, (key f, b) ∈ group_by files key ∧ f ∈ b := by
  refine ⟨files.filter (fun g => decide (key g = key f)), ?_, ?_⟩
  · rw [group_by_mem]
    refine ⟨rfl, ?_⟩
    intro hnil
    have : f ∈ files.filter (fun g => decide (key g = key f)) := by
      rw [List.mem_filter]
      exact ⟨hf, by simp⟩
    rw [hnil] at this
    exact absurd this (List.not_mem_nil f)
  · rw [List.mem_filter]
    exact ⟨hf, by simp⟩

theorem length_le_one_of_all_eq {κ : Type} {l : List κ} {k0 : κ} (hnd : l.Nodup)
    (hall : ∀ x ∈ l, x = k0) : l.length ≤ 1 := by
  match l with
  | [] => simp
  | [x] => simp
  | x :: y :: rest =>
    have hx : x = k0 := hall x (by simp)
    have hy : y = k0 := hall y (by simp)
    have : x ∉ y :: rest := (List.nodup_cons.mp hnd).1
    exact absurd (by simp [hx, hy]) this

theorem group_by_all_same {κ : Type} [DecidableEq κ] {files : List FileInfo}
    {key : FileInfo → κ} {k0 : κ} (hall : ∀ f ∈ files, key f = k0) :
    (group_by files key).length ≤ 1 := by
  have hlen : (group_by files key).length = (keysOf (group_by files key)).length := by
    simp [keysOf]
  rw [hlen]
  have hallk : ∀ k ∈ keysOf (group_by files key), k = k0 := by
    intro k hk
    obtain ⟨b, hb⟩ := keysOf_mem_exists hk
    obtain ⟨rfl, hne⟩ := group_by_mem.mp hb
    obtain ⟨f, hf⟩ := List.exists_mem_of_ne_nil _ hne
    obtain ⟨hkey, hmem⟩ := group_by_bucket_mem hb hf
    rw [← hkey]
    exact hall f hmem
  exact length_le_one_of_all_eq (nodup_keysOf_group_by files key) hallk

theorem two_le_length_of_mem_ne {κ : Type} {l : List κ} {a b : κ} (ha : a ∈ l) (hb : b ∈ l)
    (hne : a ≠ b) : 2 ≤ l.length := by
  match l with
  | [] => exact absurd ha (List.not_mem_nil a)
  | [x] =>
    rw [List.mem_singleton] at ha hb
    exact absurd (ha.trans hb.symm) hne
  | x :: y :: rest => simp

theorem group_by_two_of_ne {κ : Type} [DecidableEq κ] {files : List FileInfo}
    {key : FileInfo → κ} {f g : FileInfo} (hf : f ∈ files) (hg : g ∈ files)
    (hne : key f ≠ key g) : 2 ≤ (group_by files key).length := by
  have hlen : (group_by files key).length = (keysOf (group_by files key)).length := by
    simp [keysOf]
  rw [hlen]
  obtain ⟨bf, hbf, -⟩ := group_by_cover key hf
  obtain ⟨bg, hbg, -⟩ := group_by_cover key hg
  exact two_le_length_of_mem_ne (mem_keysOf hbf) (mem_keysOf hbg) hne

theorem group_by_le_one_all_same {κ : Type} [DecidableEq κ] {files : List FileInfo}
    {key : FileInfo → κ} (hlen : (group_by files key).length ≤ 1) :
    ∀ f ∈ files, ∀ g ∈ files, key f = key g := by
  intro f hf g hg
  by_contra hne
  have := group_by_two_of_ne hf hg hne
  omega

theorem mem_selVals {α κ β : Type} [DecidableEq κ] {sel : α → Option (κ × List β)} {k : κ}
    {items : List α} {x : β} :
    x ∈ selVals sel k items ↔ ∃ it ∈ items, ∃ vs, sel it = some (k, vs) ∧ x ∈ vs := by
  simp only [selVals, List.mem_flatMap]
  constructor
  · rintro ⟨it, hit, hx⟩
    refine ⟨it, hit, ?_⟩
    cases hsel : sel it with
    | none =>
      simp [hsel] at hx
    | some kv =>
      cases kv with
      | mk k2 vs =>
        by_cases hk : k2 = k
        · subst hk
          simp [hsel] at hx
          exact ⟨vs, rfl, hx⟩
        · simp [hsel, hk] at hx
  · rintro ⟨it, hit, vs, hsel, hx⟩
    refine ⟨it, hit, ?_⟩
    simp [hsel]
    exact hx

theorem group_by_values_sub {κ : Type} [DecidableEq κ] {files : List FileInfo}
    {key : FileInfo → κ} {b : List FileInfo}
    (hb : b ∈ (group_by files key).map (fun x => x.2)) : ∀ f ∈ b, f ∈ files := by
  rw [List.mem_map] at hb
  obtain ⟨⟨k, b2⟩, hmem, rfl⟩ := hb
  intro f hf
  exact (group_by_bucket_mem hmem hf).2

/-- Membership in a hash bucket of the `by_hash` loop: the bucket is the
concatenation of the inode classes whose representative hashed to `d`. -/
theorem mem_group_by_hash_bucket {files : List FileInfo} {h : FName → Option Digest}
    {G : List FileInfo} (hlen : ¬ (by_dev_inode files).length ≤ 1)
    (hG : G ∈ (group_by_hash files h).groups) :
    ∃ d, G = selVals (gbhSel h) d (by_dev_inode files) := by
  unfold group_by_hash at hG
  rw [if_neg hlen] at hG
  simp only [List.mem_map] at hG
  obtain ⟨⟨d, b⟩, hmem, rfl⟩ := hG
  have hnd : (keysOf (upsertFold (gbhSel h) [] (by_dev_inode files))).Nodup :=
    nodup_keysOf_upsertFold _ [] _ (by simp [keysOf])
  have := (mem_iff_alookup hnd).mp hmem
  rw [alookup_upsertFold] at this
  by_cases hc : selHit (gbhSel h) d (by_dev_inode files) = false
  · rw [if_pos ⟨rfl, hc⟩] at this
    exact absurd this (by simp)
  · rw [if_neg (fun hand => hc hand.2)] at this
    refine ⟨d, ?_⟩
    have hb := Option.some.inj this
    simpa [alookup] using hb.symm

theorem gbhSel_eq_some {h : FName → Option Digest} {c : List FileInfo} {d : Digest}
    {vs : List FileInfo} (hc : gbhSel h c = some (d, vs)) :
    vs = c ∧ ∃ rep t, c = rep :: t ∧ h rep.filename = some d := by
  match c with
  | [] => exact absurd hc (by simp [gbhSel])
  | rep :: t =>
    cases hh : h rep.filename with
    | none =>
      rw [show gbhSel h (rep :: t) = none by simp [gbhSel, hh]] at hc
      exact absurd hc (by simp)
    | some d2 =>
      rw [show gbhSel h (rep :: t) = some (d2, rep :: t) by simp [gbhSel, hh]] at hc
      obtain ⟨rfl, rfl⟩ : d2 = d ∧ rep :: t = vs := by
        have := Option.some.inj hc
        exact ⟨congrArg Prod.fst this, congrArg Prod.snd this⟩
      exact ⟨rfl, rep, t, rfl, hh⟩

/-- All members of a group returned by `group_by_hash` come from the input. -/
theorem group_by_hash_sub {files : List FileInfo} {h : FName → Option Digest}
    {G : List FileInfo} (hG : G ∈ (group_by_hash files h).groups) : ∀ f ∈ G, f ∈ files := by
  by_cases hlen : (by_dev_inode files).length ≤ 1
  · unfold group_by_hash at hG
    rw [if_pos hlen] at hG
    rw [List.mem_singleton] at hG
    subst hG
    exact fun f hf => hf
  · obtain ⟨d, rfl⟩ := mem_group_by_hash_bucket hlen hG
    intro f hf
    obtain ⟨c, hc, vs, hsel, hfv⟩ := mem_selVals.mp hf
    obtain ⟨rfl, -⟩ := gbhSel_eq_some hsel
    exact group_by_values_sub hc f hfv

/-- With at most one inode class, all input files share the
`(st_ino, st_dev)` key. -/
theorem by_dev_inode_le_one_same {files : List FileInfo}
    (hlen : (by_dev_inode files).length ≤ 1) :
    ∀ f ∈ files, ∀ g ∈ files,
      f.stat.st_ino = g.stat.st_ino ∧ f.stat.st_dev = g.stat.st_dev := by
  have hlen2 : (group_by files (fun f => (f.stat.st_ino, f.stat.st_dev))).length ≤ 1 := by
    have : (by_dev_inode files).length =
        (group_by files (fun f => (f.stat.st_ino, f.stat.st_dev))).length := by
      simp [by_dev_inode]
    omega
  intro f hf g hg
  have := group_by_le_one_all_same hlen2 f hf g hg
  exact ⟨congrArg Prod.fst this, congrArg Prod.snd this⟩

/-- Any two members of a group returned by `group_by_hash` either share the
`(st_ino, st_dev)` pair or have equal, defined digests under `h`, provided
`h` is constant on each `(st_ino, st_dev)` class of the input. -/
theorem group_by_hash_pairwise {files : List FileInfo} {h : FName → Option Digest}
    (hkey : ∀ f ∈ files, ∀ g ∈ files,
      f.stat.st_ino = g.stat.st_ino → f.stat.st_dev = g.stat.st_dev →
        h f.filename = h g.filename)
    {G : List FileInfo} (hG : G ∈ (group_by_hash files h).groups)
    {f : FileInfo} (hf : f ∈ G) {g : FileInfo} (hg : g ∈ G) :
    (f.stat.st_ino = g.stat.st_ino ∧ f.stat.st_dev = g.stat.st_dev) ∨
      ∃ d, h f.filename = some d ∧ h g.filename = some d := by
  by_cases hlen : (by_dev_inode files).length ≤ 1
  · left
    unfold group_by_hash at hG
    rw [if_pos hlen] at hG
    rw [List.mem_singleton] at hG
    subst hG
    exact by_dev_inode_le_one_same hlen f hf g hg
  · right
    obtain ⟨d, rfl⟩ := mem_group_by_hash_bucket hlen hG
    have hmemhash : ∀ x ∈ selVals (gbhSel h) d (by_dev_inode files), h x.filename = some d := by
      intro x hx
      obtain ⟨c, hcmem, vs, hsel, hxv⟩ := mem_selVals.mp hx
      obtain ⟨rfl, rep, t, rfl, hrep⟩ := gbhSel_eq_some hsel
      rw [by_dev_inode, List.mem_map] at hcmem
      obtain ⟨⟨k, b⟩, hkb, hb⟩ := hcmem
      have hxk := group_by_bucket_mem hkb (hb ▸ hxv)
      have hrepk := group_by_bucket_mem hkb (hb ▸ (List.mem_cons_self rep t))
      have hrw : x.stat.st_ino = rep.stat.st_ino ∧ x.stat.st_dev = rep.stat.st_dev := by
        have := hxk.1.trans hrepk.1.symm
        exact ⟨congrArg Prod.fst this, congrArg Prod.snd this⟩
      rw [hkey x hxk.2 rep hrepk.2 hrw.1 hrw.2]
      exact hrep
    exact ⟨d, hmemhash f hf, hmemhash g hg⟩

/-- `group_compose` over a concatenation of stage lists composes. -/
theorem group_compose_append (data : List (List FileInfo))
    (l1 l2 : List (List FileInfo → List (List FileInfo))) :
    group_compose data (l1 ++ l2) = group_compose (group_compose data l1) l2 := by
  induction l1 generalizing data with
  | nil => simp [group_compose]
  | cons f fs ih => simp [group_compose, ih]

/-- Every group produced by a non-empty stage list has survived the final
`filter_solo`, hence has more than one member. -/
theorem group_compose_min {data : List (List FileInfo)}
    {fns : List (List FileInfo → List (List FileInfo))} (hfns : fns ≠ [])
    {G : List FileInfo} (hG : G ∈ group_compose data fns) : 1 < G.length := by
  induction fns generalizing data with
  | nil => exact absurd rfl hfns
  | cons f fs ih =>
    match fs, hG with
    | [], hG =>
      rw [show group_compose data [f] =
          (data.map (fun i => filter_solo (f i))).flatten from rfl] at hG
      rw [List.mem_flatten] at hG
      obtain ⟨l, hl, hGl⟩ := hG
      rw [List.mem_map] at hl
      obtain ⟨i, -, rfl⟩ := hl
      rw [filter_solo, List.mem_filter] at hGl
      simpa using hGl.2
    | f2 :: fs2, hG => exact ih (by simp) hG

/-- Members of any group produced by `group_compose` trace back to one
input group, provided every stage function refines its input group. -/
theorem group_compose_sub {data : List (List FileInfo)}
    {fns : List (List FileInfo → List (List FileInfo))}
    (hfns : ∀ fn ∈ fns, ∀ i G, G ∈ fn i → ∀ f ∈ G, f ∈ i)
    {G : List FileInfo} (hG : G ∈ group_compose data fns) :
    ∃ i ∈ data, ∀ f ∈ G, f ∈ i := by
  induction fns generalizing data with
  | nil => exact ⟨G, hG, fun f hf => hf⟩
  | cons fn fs ih =>
    rw [show group_compose data (fn :: fs) =
        group_compose ((data.map (fun i => filter_solo (fn i))).flatten) fs from rfl] at hG
    obtain ⟨j, hj, hsub⟩ := ih (fun f2 hf2 => hfns f2 (by simp [hf2])) hG
    rw [List.mem_flatten] at hj
    obtain ⟨l, hl, hjl⟩ := hj
    rw [List.mem_map] at hl
    obtain ⟨i, hi, rfl⟩ := hl
    rw [filter_solo, List.mem_filter] at hjl
    have hji : ∀ f ∈ j, f ∈ i := hfns fn (by simp) i j hjl.1
    exact ⟨i, hi, fun f hf => hji f (hsub f hf)⟩

/-- Every record produced by `stat_files` carries the stat the oracle
returned for its path, and satisfies the admission conditions. -/
theorem stat_files_rec_mem {statFn : FName → Option StatInfo} {paths : List FName}
    {f : FileInfo} (hf : f ∈ (stat_files statFn paths).1) :
    statFn f.filename = some f.stat ∧ f.filename ∈ paths ∧
      FileInfo.regular_file f = true ∧ f.stat.st_size ≠ 0 := by
  induction paths with
  | nil => exact absurd hf (by simp [stat_files])
  | cons p rest ih =>
    rw [stat_files] at hf
    cases hstat : statFn p with
    | none =>
      simp only [hstat] at hf
      obtain ⟨h1, h2, h3, h4⟩ := ih hf
      exact ⟨h1, by simp [h2], h3, h4⟩
    | some s =>
      simp only [hstat] at hf
      by_cases hcond : FileInfo.regular_file ⟨p, s⟩ && decide (s.st_size ≠ 0)
      · rw [if_pos hcond] at hf
        rw [List.mem_cons] at hf
        rcases hf with rfl | hf
        · refine ⟨hstat, by simp, ?_, ?_⟩
          · exact (Bool.and_eq_true _ _).mp hcond |>.1
          · simpa using (Bool.and_eq_true _ _).mp hcond |>.2
        · obtain ⟨h1, h2, h3, h4⟩ := ih hf
          exact ⟨h1, by simp [h2], h3, h4⟩
      · rw [if_neg hcond] at hf
        obtain ⟨h1, h2, h3, h4⟩ := ih hf
        exact ⟨h1, by simp [h2], h3, h4⟩

/-- Records admitted by `stat_files` for paths that pass all checks. -/
theorem stat_files_complete {statFn : FName → Option StatInfo} {paths : List FName}
    {p : FName} {s : StatInfo} (hp : p ∈ paths) (hs : statFn p = some s)
    (hreg : FileInfo.regular_file ⟨p, s⟩ = true) (hsize : s.st_size ≠ 0) :
    FileInfo.mk p s ∈ (stat_files statFn paths).1 := by
  induction paths with
  | nil => exact absurd hp (List.not_mem_nil p)
  | cons q rest ih =>
    rw [List.mem_cons] at hp
    rw [stat_files]
    rcases hp with rfl | hp
    · simp only [hs]
      rw [if_pos (by simp [hreg, hsize])]
      exact List.mem_cons_self _ _
    · cases hstat : statFn q with
      | none =>
        simp only [hstat]
        exact ih hp
      | some s2 =>
        simp only [hstat]
        by_cases hcond : FileInfo.regular_file ⟨q, s2⟩ && decide (s2.st_size ≠ 0)
        · rw [if_pos hcond]
          exact List.mem_cons_of_mem _ (ih hp)
        · rw [if_neg hcond]
          exact ih hp

/-- Diagnostics of `stat_files` are exactly the paths whose stat failed. -/
theorem stat_files_diag {statFn : FName → Option StatInfo} {paths : List FName} {p : FName} :
    p ∈ (stat_files statFn paths).2 ↔ p ∈ paths ∧ statFn p = none := by
  induction paths with
  | nil => simp [stat_files]
  | cons q rest ih =>
    rw [stat_files]
    cases hstat : statFn q with
    | none =>
      simp only [hstat, List.mem_cons]
      constructor
      · rintro (rfl | hp)
        · exact ⟨Or.inl rfl, hstat⟩
        · obtain ⟨h1, h2⟩ := ih.mp hp
          exact ⟨Or.inr h1, h2⟩
      · rintro ⟨(rfl | hp), h2⟩
        · exact Or.inl rfl
        · exact Or.inr (ih.mpr ⟨hp, h2⟩)
    | some s =>
      simp only [hstat]
      by_cases hcond : FileInfo.regular_file ⟨q, s⟩ && decide (s.st_size ≠ 0)
      · rw [if_pos hcond]
        rw [ih]
        constructor
        · rintro ⟨h1, h2⟩
          exact ⟨List.mem_cons_of_mem _ h1, h2⟩
        · rintro ⟨hq, h2⟩
          rw [List.mem_cons] at hq
          rcases hq with rfl | hq
          · rw [hstat] at h2
            exact absurd h2 (by simp)
          · exact ⟨hq, h2⟩
      · rw [if_neg hcond]
        rw [ih]
        constructor
        · rintro ⟨h1, h2⟩
          exact ⟨List.mem_cons_of_mem _ h1, h2⟩
        · rintro ⟨hq, h2⟩
          rw [List.mem_cons] at hq
          rcases hq with rfl | hq
          · rw [hstat] at h2
            exact absurd h2 (by simp)
          · exact ⟨hq, h2⟩

/-- C1: for every input path sequence, any two members of a group yielded
by `deduplicate` either share the same `(device_id, inode)` pair or have
equal full-file SHA-1 digests (given that the full-hash oracle, like a
real content hash, is constant on files with the same device and inode). -/
theorem claim_C1 (statFn : FName → Option StatInfo) (fastH shaH : FName → Option Digest)
    (paths : List FName)
    (hsha : ∀ p q sp sq, statFn p = some sp → statFn q = some sq →
      sp.st_ino = sq.st_ino → sp.st_dev = sq.st_dev → shaH p = shaH q)
    (G : List FileInfo) (hG : G ∈ deduplicate statFn fastH shaH paths)
    (f : FileInfo) (hf : f ∈ G) (g : FileInfo) (hg : g ∈ G) :
    (f.stat.st_ino = g.stat.st_ino ∧ f.stat.st_dev = g.stat.st_dev) ∨
      ∃ d, shaH f.filename = some d ∧ shaH g.filename = some d := by
  unfold deduplicate at hG
  rw [show [group_by_size,
        fun x => (group_by_hash x fastH).groups,
        fun x => (group_by_hash x shaH).groups] =
      [group_by_size, fun x => (group_by_hash x fastH).groups] ++
        [fun x => (group_by_hash x shaH).groups] from rfl,
    group_compose_append] at hG
  rw [show group_compose
        (group_compose [(stat_files statFn paths).1]
          [group_by_size, fun x => (group_by_hash x fastH).groups])
        [fun x => (group_by_hash x shaH).groups] =
      ((group_compose [(stat_files statFn paths).1]
          [group_by_size, fun x => (group_by_hash x fastH).groups]).map
        (fun i => filter_solo ((group_by_hash i shaH).groups))).flatten from rfl] at hG
  rw [List.mem_flatten] at hG
  obtain ⟨l, hl, hGl⟩ := hG
  rw [List.mem_map] at hl
  obtain ⟨i, hi, rfl⟩ := hl
  have hisub : ∀ x ∈ i, x ∈ (stat_files statFn paths).1 := by
    have hfns : ∀ fn ∈ [group_by_size, fun x => (group_by_hash x fastH).groups],
        ∀ j H, H ∈ fn j → ∀ x ∈ H, x ∈ j := by
      intro fn hfn j H hH x hx
      rw [List.mem_cons, List.mem_singleton] at hfn
      rcases hfn with rfl | rfl
      · exact group_by_values_sub hH x hx
      · exact group_by_hash_sub hH x hx
    obtain ⟨i0, hi0, hsub⟩ := group_compose_sub hfns hi
    rw [List.mem_singleton] at hi0
    subst hi0
    exact hsub
  rw [filter_solo, List.mem_filter] at hGl
  have hGgroups := hGl.1
  have hkey : ∀ x ∈ i, ∀ y ∈ i,
      x.stat.st_ino = y.stat.st_ino → x.stat.st_dev = y.stat.st_dev →
        shaH x.filename = shaH y.filename := by
    intro x hx y hy hino hdev
    obtain ⟨hsx, -, -, -⟩ := stat_files_rec_mem (hisub x hx)
    obtain ⟨hsy, -, -, -⟩ := stat_files_rec_mem (hisub y hy)
    exact hsha x.filename y.filename x.stat y.stat hsx hsy hino hdev
  exact group_by_hash_pairwise hkey hGgroups hf hg

/-- C1 witness: two distinct-inode files of equal size and equal digests
form one yielded group, and the claimed disjunction holds for them. -/
theorem claim_C1_witness :
    (exF1.stat.st_ino = exF2.stat.st_ino ∧ exF1.stat.st_dev = exF2.stat.st_dev) ∨
      ∃ d, exSha exF1.filename = some d ∧ exSha exF2.filename = some d :=
  claim_C1 exStat exFast exSha [[1], [2]]
    (fun _ _ _ _ _ _ _ _ => rfl)
    [exF1, exF2] (by decide) exF1 (by decide) exF2 (by decide)

/-- C4: a candidate group (two or more members) all sharing one
`(device_id, inode)` pair is returned whole as a single group, the hash
function is never invoked, and the group survives `filter_solo`, i.e. it
is still returned as confirmed-duplicate. -/
theorem claim_C4 (files : List FileInfo) (h : FName → Option Digest)
    (hlen2 : 2 ≤ files.length)
    (hsame : ∀ f ∈ files, ∀ g ∈ files,
      f.stat.st_ino = g.stat.st_ino ∧ f.stat.st_dev = g.stat.st_dev) :
    (group_by_hash files h).groups = [files] ∧ (group_by_hash files h).calls = [] ∧
      filter_solo (group_by_hash files h).groups = [files] := by
  have hone : (by_dev_inode files).length ≤ 1 := by
    have : (by_dev_inode files).length =
        (group_by files (fun f => (f.stat.st_ino, f.stat.st_dev))).length := by
      simp [by_dev_inode]
    rw [this]
    match files, hlen2 with
    | f0 :: rest, _ =>
      have hallk : ∀ f ∈ f0 :: rest,
          (fun f => (f.stat.st_ino, f.stat.st_dev)) f =
            (f0.stat.st_ino, f0.stat.st_dev) := by
        intro f hf
        obtain ⟨h1, h2⟩ := hsame f hf f0 (List.mem_cons_self f0 rest)
        simp [h1, h2]
      exact group_by_all_same hallk
  have hgbh : group_by_hash files h = ⟨[files], [], []⟩ := by
    unfold group_by_hash
    rw [if_pos hone]
  refine ⟨by rw [hgbh], by rw [hgbh], ?_⟩
  rw [hgbh]
  show filter_solo [files] = [files]
  rw [filter_solo]
  rw [List.filter_cons]
  rw [if_pos (by simpa using hlen2)]
  rfl

/-- C4 witness: two hardlinked records (same device and inode) are
returned as one confirmed group with no hash invocation. -/
theorem claim_C4_witness :
    (group_by_hash [exG1, exG2] exSha).groups = [[exG1, exG2]] ∧
      (group_by_hash [exG1, exG2] exSha).calls = [] ∧
      filter_solo (group_by_hash [exG1, exG2] exSha).groups = [[exG1, exG2]] :=
  claim_C4 [exG1, exG2] exSha (by decide) (by decide)

/-- C8: every group yielded by `deduplicate` has at least two members. -/
theorem claim_C8 (statFn : FName → Option StatInfo) (fastH shaH : FName → Option Digest)
    (paths : List FName) (G : List FileInfo)
    (hG : G ∈ deduplicate statFn fastH shaH paths) : 2 ≤ G.length := by
  unfold deduplicate at hG
  exact group_compose_min (by simp) hG

/-- C8 witness: a concrete pipeline run yields a group of length 2. -/
theorem claim_C8_witness : 2 ≤ ([exF1, exF2] : List FileInfo).length :=
  claim_C8 exStat exFast exSha [[1], [2]] [exF1, exF2] (by decide)

/-- C9: when the hash oracle fails (`IOError`) on the representative of an
inode class during `group_by_hash`, that entire class is dropped from the
returned groups and the representative is named in a diagnostic, while
every class whose representative hashes successfully still appears in a
returned group; the function is total, so the batch never aborts. -/
theorem claim_C9 (files : List FileInfo) (h : FName → Option Digest) (k : Nat × Nat)
    (rep : FileInfo) (t : List FileInfo)
    (hlen : ¬ (by_dev_inode files).length ≤ 1)
    (hc : (k, rep :: t) ∈ group_by files (fun f => (f.stat.st_ino, f.stat.st_dev)))
    (hfail : h rep.filename = none) :
    rep ∈ (group_by_hash files h).diags ∧
      (∀ G ∈ (group_by_hash files h).groups, ∀ f ∈ rep :: t, f ∉ G) ∧
      (∀ k2 rep2 t2 d,
        (k2, rep2 :: t2) ∈ group_by files (fun f => (f.stat.st_ino, f.stat.st_dev)) →
        h rep2.filename = some d →
        ∀ f ∈ rep2 :: t2, ∃ G ∈ (group_by_hash files h).groups, f ∈ G) := by
  have hcls : (rep :: t) ∈ by_dev_inode files := by
    rw [by_dev_inode, List.mem_map]
    exact ⟨(k, rep :: t), hc, rfl⟩
  refine ⟨?_, ?_, ?_⟩
  · unfold group_by_hash
    rw [if_neg hlen]
    show rep ∈ (by_dev_inode files).filterMap _
    rw [List.mem_filterMap]
    refine ⟨rep :: t, hcls, ?_⟩
    simp [hfail]
  · intro G hG f hf hfG
    obtain ⟨d, rfl⟩ := mem_group_by_hash_bucket hlen hG
    obtain ⟨c2, hc2mem, vs, hsel, hfv⟩ := mem_selVals.mp hfG
    obtain ⟨rfl, rep2, t2, rfl, hrep2⟩ := gbhSel_eq_some hsel
    rw [by_dev_inode, List.mem_map] at hc2mem
    obtain ⟨⟨k2, b2⟩, hk2, hb2⟩ := hc2mem
    have hfkey2 := group_by_bucket_mem hk2 (hb2 ▸ hfv)
    have hfkey := group_by_bucket_mem hc hf
    have hkeq : k2 = k := hfkey2.1.symm.trans hfkey.1
    subst hkeq
    have hbeq : rep2 :: t2 = rep :: t := by
      obtain ⟨he2, -⟩ := group_by_mem.mp hk2
      obtain ⟨he, -⟩ := group_by_mem.mp hc
      rw [← hb2, he2, he]
    have : rep2 = rep := (List.cons.injEq _ _ _ _).mp hbeq |>.1
    rw [this, hfail] at hrep2
    exact absurd hrep2 (by simp)
  · intro k2 rep2 t2 d hk2 hd f hf
    have hcls2 : (rep2 :: t2) ∈ by_dev_inode files := by
      rw [by_dev_inode, List.mem_map]
      exact ⟨(k2, rep2 :: t2), hk2, rfl⟩
    have hsel2 : gbhSel h (rep2 :: t2) = some (d, rep2 :: t2) := by
      simp [gbhSel, hd]
    refine ⟨selVals (gbhSel h) d (by_dev_inode files), ?_, ?_⟩
    · unfold group_by_hash
      rw [if_neg hlen]
      show _ ∈ (upsertFold (gbhSel h) [] (by_dev_inode files)).map _
      rw [List.mem_map]
      refine ⟨(d, selVals (gbhSel h) d (by_dev_inode files)), ?_, rfl⟩
      rw [mem_iff_alookup (nodup_keysOf_upsertFold _ [] _ (by simp [keysOf]))]
      rw [alookup_upsertFold]
      have hhit : selHit (gbhSel h) d (by_dev_inode files) = true := by
        rw [selHit, List.any_eq_true]
        refine ⟨rep2 :: t2, hcls2, ?_⟩
        rw [hsel2]
        simp
      rw [if_neg (by
        rintro ⟨-, hfalse⟩
        rw [hhit] at hfalse
        exact absurd hfalse (by simp))]
      simp [alookup]
    · exact mem_selVals.mpr ⟨rep2 :: t2, hcls2, rep2 :: t2, hsel2, hf⟩

/-- C9 witness: with two singleton inode classes and the hash failing on
the first file, that file is dropped with a diagnostic and the other
class still appears in a returned group. -/
theorem claim_C9_witness :
    exF1 ∈ (group_by_hash [exF1, exF2] exShaF).diags ∧
      (∀ G ∈ (group_by_hash [exF1, exF2] exShaF).groups, ∀ f ∈ [exF1], f ∉ G) ∧
      (∀ k2 rep2 t2 d,
        (k2, rep2 :: t2) ∈ group_by [exF1, exF2]
          (fun f => (f.stat.st_ino, f.stat.st_dev)) →
        exShaF rep2.filename = some d →
        ∀ f ∈ rep2 :: t2, ∃ G ∈ (group_by_hash [exF1, exF2] exShaF).groups, f ∈ G) :=
  claim_C9 [exF1, exF2] exShaF (11, 5) exF1 [] (by decide) (by decide) (by decide)

/-- C10: `stat_files` yields a record for a path iff the stat call
succeeds, the entry is a regular non-symlink file, and its size is
positive; a failed stat yields a diagnostic naming exactly that path (and
only stat failures are diagnosed, so zero-length files are skipped
silently); every admitted record carries the stat of its path. -/
theorem claim_C10 (statFn : FName → Option StatInfo) (paths : List FName) (p : FName)
    (hp : p ∈ paths) :
    ((∃ f ∈ (stat_files statFn paths).1, f.filename = p) ↔
      (∃ s, statFn p = some s ∧ FileInfo.regular_file ⟨p, s⟩ = true ∧ 0 < s.st_size)) ∧
      (p ∈ (stat_files statFn paths).2 ↔ statFn p = none) ∧
      (∀ f ∈ (stat_files statFn paths).1, statFn f.filename = some f.stat) := by
  refine ⟨⟨?_, ?_⟩, ⟨?_, ?_⟩, ?_⟩
  · rintro ⟨f, hf, rfl⟩
    obtain ⟨h1, -, h3, h4⟩ := stat_files_rec_mem hf
    exact ⟨f.stat, h1, h3, Nat.pos_of_ne_zero h4⟩
  · rintro ⟨s, hs, hreg, hsize⟩
    exact ⟨⟨p, s⟩, stat_files_complete hp hs hreg (Nat.pos_iff_ne_zero.mp hsize), rfl⟩
  · intro hdiag
    exact (stat_files_diag.mp hdiag).2
  · intro hnone
    exact stat_files_diag.mpr ⟨hp, hnone⟩
  · intro f hf
    exact (stat_files_rec_mem hf).1

/-- C10 witness: path `[1]` yields a record, the unknown path `[9]` fails
stat and is diagnosed. -/
theorem claim_C10_witness :
    ((∃ f ∈ (stat_files exStat [[1], [2], [9]]).1, f.filename = [9]) ↔
      (∃ s, exStat [9] = some s ∧ FileInfo.regular_file ⟨[9], s⟩ = true ∧ 0 < s.st_size)) ∧
      ([9] ∈ (stat_files exStat [[1], [2], [9]]).2 ↔ exStat [9] = none) ∧
      (∀ f ∈ (stat_files exStat [[1], [2], [9]]).1, exStat f.filename = some f.stat) :=
  claim_C10 exStat [[1], [2], [9]] [9] (by decide)

theorem foldl_nlink_first {xs : List FileInfo} {acc m : FileInfo}
    (h : xs.foldl (fun acc f => if f.stat.st_nlink > acc.stat.st_nlink then f else acc)
      acc = m) :
    (∀ f ∈ xs, f.stat.st_nlink ≤ m.stat.st_nlink) ∧
      acc.stat.st_nlink ≤ m.stat.st_nlink ∧
      (m = acc ∨ (acc.stat.st_nlink < m.stat.st_nlink ∧
        ∃ l1 l2, xs = l1 ++ m :: l2 ∧ ∀ f ∈ l1, f.stat.st_nlink < m.stat.st_nlink)) := by
  induction xs generalizing acc with
  | nil =>
    rw [List.foldl_nil] at h
    subst h
    exact ⟨by simp, Nat.le_refl _, Or.inl rfl⟩
  | cons x rest ih =>
    rw [List.foldl_cons] at h
    by_cases hx : x.stat.st_nlink > acc.stat.st_nlink
    · rw [if_pos hx] at h
      obtain ⟨hall, hacc, hcase⟩ := ih h
      refine ⟨?_, ?_, ?_⟩
      · intro f hf
        rw [List.mem_cons] at hf
        rcases hf with rfl | hf
        · exact hacc
        · exact hall f hf
      · exact Nat.le_of_lt (Nat.lt_of_lt_of_le hx hacc)
      · rcases hcase with rfl | ⟨hlt, l1, l2, rfl, hl1⟩
        · exact Or.inr ⟨hx, [], rest, rfl, by simp⟩
        · refine Or.inr ⟨Nat.lt_trans hx hlt, x :: l1, l2, rfl, ?_⟩
          intro f hf
          rw [List.mem_cons] at hf
          rcases hf with rfl | hf
          · exact hlt
          · exact hl1 f hf
    · rw [if_neg hx] at h
      obtain ⟨hall, hacc, hcase⟩ := ih h
      have hxle : x.stat.st_nlink ≤ acc.stat.st_nlink := Nat.le_of_not_lt hx
      refine ⟨?_, hacc, ?_⟩
      · intro f hf
        rw [List.mem_cons] at hf
        rcases hf with rfl | hf
        · exact Nat.le_trans hxle hacc
        · exact hall f hf
      · rcases hcase with rfl | ⟨hlt, l1, l2, rfl, hl1⟩
        · exact Or.inl rfl
        · refine Or.inr ⟨hlt, x :: l1, l2, rfl, ?_⟩
          intro f hf
          rw [List.mem_cons] at hf
          rcases hf with rfl | hf
          · exact Nat.lt_of_le_of_lt hxle hlt
          · exact hl1 f hf

/-- The survivor returned by Python's `max(files, key=nlink)` is the first
member attaining the maximal link count. -/
theorem pyMaxNlink_eq_some {files : List FileInfo} {m : FileInfo}
    (h : pyMaxNlink files = some m) :
    (∀ f ∈ files, f.stat.st_nlink ≤ m.stat.st_nlink) ∧
      ∃ l1 l2, files = l1 ++ m :: l2 ∧ ∀ f ∈ l1, f.stat.st_nlink < m.stat.st_nlink := by
  match files with
  | [] => exact absurd h (by simp [pyMaxNlink])
  | x :: xs =>
    rw [pyMaxNlink] at h
    have hfold := Option.some.inj h
    obtain ⟨hall, hacc, hcase⟩ := foldl_nlink_first hfold
    refine ⟨?_, ?_⟩
    · intro f hf
      rw [List.mem_cons] at hf
      rcases hf with rfl | hf
      · exact hacc
      · exact hall f hf
    · rcases hcase with rfl | ⟨hlt, l1, l2, rfl, hl1⟩
      · exact ⟨[], xs, rfl, by simp⟩
      · refine ⟨x :: l1, l2, rfl, ?_⟩
        intro f hf
        rw [List.mem_cons] at hf
        rcases hf with rfl | hf
        · exact hlt
        · exact hl1 f hf

theorem pyMaxNlink_mem {files : List FileInfo} {m : FileInfo}
    (h : pyMaxNlink files = some m) : m ∈ files := by
  obtain ⟨-, l1, l2, rfl, -⟩ := pyMaxNlink_eq_some h
  simp

theorem hardlink_ok_bytes (src dest : FileInfo) (dry_run : Bool) (oracle : Nat → Bool)
    (fs : FS) (ctr : Nat) (hok : (hardlink src dest dry_run oracle fs ctr).ok = true) :
    (hardlink src dest dry_run oracle fs ctr).bytes = dest.stat.st_size := by
  unfold hardlink at hok ⊢
  by_cases h1 : src.stat.st_dev ≠ dest.stat.st_dev
  · rw [if_pos h1] at hok
    exact absurd hok (by simp)
  · rw [if_neg h1] at hok ⊢
    cases dry_run with
    | true => rfl
    | false =>
      simp only [Bool.false_eq_true, if_false] at hok ⊢
      cases ht1 : tryExec oracle fs ctr (FsOp.rename dest.filename
          (dest.filename ++ bakSuffix)) with
      | none =>
        simp only [ht1] at hok
        exact absurd hok (by simp)
      | some fs1 =>
        simp only [ht1] at hok ⊢
        cases ht2 : tryExec oracle fs1 (ctr + 1)
            (FsOp.link src.filename dest.filename) with
        | none =>
          simp only [ht2] at hok
          exact absurd hok (by simp)
        | some fs2 =>
          simp only [ht2] at hok ⊢
          cases ht3 : tryExec oracle fs2 (ctr + 2)
              (FsOp.unlink (dest.filename ++ bakSuffix)) with
          | none =>
            simp only [ht3] at hok
            exact absurd hok (by simp)
          | some fs3 =>
            simp only [ht3]

theorem runTargets_survivor (master : FileInfo) (dry_run : Bool) (oracle : Nat → Bool)
    (ts : List FileInfo) (fs : FS) (ctr : Nat) :
    (runTargets master dry_run oracle ts fs ctr).survivor = some master := by
  cases ts with
  | nil => rfl
  | cons t rest => rfl

/-- The processed `(master, target)` pairs are exactly the target list,
whatever the oracle, filesystem and counter. -/
theorem runTargets_log_proj (master : FileInfo) (dry_run : Bool) (oracle : Nat → Bool)
    (ts : List FileInfo) (fs : FS) (ctr : Nat) :
    (runTargets master dry_run oracle ts fs ctr).log.map (fun e => (e.1, e.2.1)) =
      ts.map (fun t => (master, t)) := by
  induction ts generalizing fs ctr with
  | nil => rfl
  | cons t rest ih =>
    show ((master, t, _) :: _).map (fun e => (e.1, e.2.1)) = _
    rw [List.map_cons, List.map_cons, ih]

/-- The accumulated byte count is the sum of the sizes of the targets
whose replacement succeeded. -/
theorem runTargets_bytes (master : FileInfo) (dry_run : Bool) (oracle : Nat → Bool)
    (ts : List FileInfo) (fs : FS) (ctr : Nat) :
    (runTargets master dry_run oracle ts fs ctr).bytes =
      (((runTargets master dry_run oracle ts fs ctr).log.filter
        (fun e => e.2.2)).map (fun e => e.2.1.stat.st_size)).sum := by
  induction ts generalizing fs ctr with
  | nil => rfl
  | cons t rest ih =>
    rw [show (runTargets master dry_run oracle (t :: rest) fs ctr).bytes =
        (if (hardlink master t dry_run oracle fs ctr).ok then
          (hardlink master t dry_run oracle fs ctr).bytes else 0) +
        (runTargets master dry_run oracle rest
          (hardlink master t dry_run oracle fs ctr).fs
          (hardlink master t dry_run oracle fs ctr).ctr).bytes from rfl]
    rw [show (runTargets master dry_run oracle (t :: rest) fs ctr).log =
        (master, t, (hardlink master t dry_run oracle fs ctr).ok) ::
        (runTargets master dry_run oracle rest
          (hardlink master t dry_run oracle fs ctr).fs
          (hardlink master t dry_run oracle fs ctr).ctr).log from rfl]
    rw [List.filter_cons]
    cases hok : (hardlink master t dry_run oracle fs ctr).ok with
    | true =>
      rw [if_pos rfl, if_pos rfl]
      rw [List.map_cons, List.sum_cons]
      rw [hardlink_ok_bytes master t dry_run oracle fs ctr hok]
      rw [ih]
    | false =>
      rw [if_neg (by simp), if_neg (by simp)]
      rw [Nat.zero_add, ih]

theorem runTargets_log_mem {master : FileInfo} {dry_run : Bool} {oracle : Nat → Bool}
    {ts : List FileInfo} {fs : FS} {ctr : Nat} {e : FileInfo × FileInfo × Bool}
    (he : e ∈ (runTargets master dry_run oracle ts fs ctr).log) :
    e.1 = master ∧ e.2.1 ∈ ts := by
  induction ts generalizing fs ctr with
  | nil => exact absurd he (by simp [runTargets])
  | cons t rest ih =>
    rw [show (runTargets master dry_run oracle (t :: rest) fs ctr).log =
        (master, t, (hardlink master t dry_run oracle fs ctr).ok) ::
          (runTargets master dry_run oracle rest
            (hardlink master t dry_run oracle fs ctr).fs
            (hardlink master t dry_run oracle fs ctr).ctr).log from rfl] at he
    rw [List.mem_cons] at he
    rcases he with rfl | he
    · exact ⟨rfl, by simp⟩
    · obtain ⟨h1, h2⟩ := ih he
      exact ⟨h1, List.mem_cons_of_mem _ h2⟩

theorem consolidationTargets_sub {files : List FileInfo} {mi : Nat} {t : FileInfo}
    (ht : t ∈ consolidationTargets files mi) : t ∈ files := by
  rw [consolidationTargets, List.mem_flatten] at ht
  obtain ⟨b, hb, htb⟩ := ht
  rw [List.mem_map] at hb
  obtain ⟨⟨k, b2⟩, hkb, rfl⟩ := hb
  rw [List.mem_filter] at hkb
  exact (group_by_bucket_mem hkb.1 htb).2

theorem mhd_log_mem {g : List FileInfo} {dry_run : Bool} {oracle : Nat → Bool} {fs : FS}
    {ctr : Nat} {e : FileInfo × FileInfo × Bool}
    (he : e ∈ (make_hardlinks_within_device g dry_run oracle fs ctr).log) :
    e.1 ∈ g ∧ e.2.1 ∈ g := by
  unfold make_hardlinks_within_device at he
  by_cases hlen : (group_by g (fun f => f.stat.st_ino)).length ≤ 1
  · rw [if_pos hlen] at he
    exact absurd he (by simp)
  · rw [if_neg hlen] at he
    cases hmax : pyMaxNlink g with
    | none =>
      rw [hmax] at he
      exact absurd he (by simp)
    | some master =>
      rw [hmax] at he
      obtain ⟨h1, h2⟩ := runTargets_log_mem he
      exact ⟨h1 ▸ pyMaxNlink_mem hmax, consolidationTargets_sub h2⟩

theorem mhAux_log_mem {gs : List (List FileInfo)} {dry_run : Bool} {oracle : Nat → Bool}
    {fs : FS} {ctr : Nat} {e : FileInfo × FileInfo × Bool}
    (he : e ∈ (mhAux dry_run oracle gs fs ctr).log) :
    ∃ g ∈ gs, ∃ fs2 ctr2,
      e ∈ (make_hardlinks_within_device g dry_run oracle fs2 ctr2).log := by
  induction gs generalizing fs ctr with
  | nil => exact absurd he (by simp [mhAux])
  | cons g rest ih =>
    rw [show (mhAux dry_run oracle (g :: rest) fs ctr).log =
        (make_hardlinks_within_device g dry_run oracle fs ctr).log ++
          (mhAux dry_run oracle rest
            (make_hardlinks_within_device g dry_run oracle fs ctr).fs
            (make_hardlinks_within_device g dry_run oracle fs ctr).ctr).log from rfl] at he
    rw [List.mem_append] at he
    rcases he with he | he
    · exact ⟨g, by simp, fs, ctr, he⟩
    · obtain ⟨g2, hg2, fs2, ctr2, he2⟩ := ih he
      exact ⟨g2, List.mem_cons_of_mem _ hg2, fs2, ctr2, he2⟩

theorem mhd_bytes (g : List FileInfo) (dry_run : Bool) (oracle : Nat → Bool) (fs : FS)
    (ctr : Nat) :
    (make_hardlinks_within_device g dry_run oracle fs ctr).bytes =
      (((make_hardlinks_within_device g dry_run oracle fs ctr).log.filter
        (fun e => e.2.2)).map (fun e => e.2.1.stat.st_size)).sum := by
  unfold make_hardlinks_within_device
  by_cases hlen : (group_by g (fun f => f.stat.st_ino)).length ≤ 1
  · rw [if_pos hlen]
    rfl
  · rw [if_neg hlen]
    cases pyMaxNlink g with
    | none => rfl
    | some master => exact runTargets_bytes master dry_run oracle _ fs ctr

theorem mhd_log_proj (g : List FileInfo) (dry_run : Bool) (oracle oracle2 : Nat → Bool)
    (fs fs2 : FS) (ctr ctr2 : Nat) :
    (make_hardlinks_within_device g dry_run oracle fs ctr).log.map (fun e => (e.1, e.2.1)) =
      (make_hardlinks_within_device g dry_run oracle2 fs2 ctr2).log.map
        (fun e => (e.1, e.2.1)) := by
  unfold make_hardlinks_within_device
  by_cases hlen : (group_by g (fun f => f.stat.st_ino)).length ≤ 1
  · rw [if_pos hlen, if_pos hlen]
  · rw [if_neg hlen, if_neg hlen]
    cases pyMaxNlink g with
    | none => rfl
    | some master =>
      rw [runTargets_log_proj, runTargets_log_proj]

theorem mhAux_bytes (gs : List (List FileInfo)) (dry_run : Bool) (oracle : Nat → Bool)
    (fs : FS) (ctr : Nat) :
    (mhAux dry_run oracle gs fs ctr).bytes =
      (((mhAux dry_run oracle gs fs ctr).log.filter
        (fun e => e.2.2)).map (fun e => e.2.1.stat.st_size)).sum := by
  induction gs generalizing fs ctr with
  | nil => rfl
  | cons g rest ih =>
    rw [show (mhAux dry_run oracle (g :: rest) fs ctr).bytes =
        (make_hardlinks_within_device g dry_run oracle fs ctr).bytes +
        (mhAux dry_run oracle rest
          (make_hardlinks_within_device g dry_run oracle fs ctr).fs
          (make_hardlinks_within_device g dry_run oracle fs ctr).ctr).bytes from rfl]
    rw [show (mhAux dry_run oracle (g :: rest) fs ctr).log =
        (make_hardlinks_within_device g dry_run oracle fs ctr).log ++
        (mhAux dry_run oracle rest
          (make_hardlinks_within_device g dry_run oracle fs ctr).fs
          (make_hardlinks_within_device g dry_run oracle fs ctr).ctr).log from rfl]
    rw [List.filter_append, List.map_append, List.sum_append]
    rw [mhd_bytes, ih]

theorem mhAux_log_proj (gs : List (List FileInfo)) (dry_run : Bool)
    (oracle oracle2 : Nat → Bool) (fs fs2 : FS) (ctr ctr2 : Nat) :
    (mhAux dry_run oracle gs fs ctr).log.map (fun e => (e.1, e.2.1)) =
      (mhAux dry_run oracle2 gs fs2 ctr2).log.map (fun e => (e.1, e.2.1)) := by
  induction gs generalizing fs ctr fs2 ctr2 with
  | nil => rfl
  | cons g rest ih =>
    rw [show (mhAux dry_run oracle (g :: rest) fs ctr).log =
        (make_hardlinks_within_device g dry_run oracle fs ctr).log ++
        (mhAux dry_run oracle rest
          (make_hardlinks_within_device g dry_run oracle fs ctr).fs
          (make_hardlinks_within_device g dry_run oracle fs ctr).ctr).log from rfl]
    rw [show (mhAux dry_run oracle2 (g :: rest) fs2 ctr2).log =
        (make_hardlinks_within_device g dry_run oracle2 fs2 ctr2).log ++
        (mhAux dry_run oracle2 rest
          (make_hardlinks_within_device g dry_run oracle2 fs2 ctr2).fs
          (make_hardlinks_within_device g dry_run oracle2 fs2 ctr2).ctr).log from rfl]
    rw [List.map_append, List.map_append]
    rw [mhd_log_proj g dry_run oracle oracle2 fs fs2 ctr ctr2]
    rw [ih]

/-- C3: a failed replacement is logged (the diagnostic names the survivor
and the target) without stopping the run: the set of attempted
`(survivor, target)` pairs is the same whatever the failure oracle — both
within one device group and across the whole batch — and the returned
byte count is exactly the sum of the sizes of the targets whose
replacement succeeded. -/
theorem claim_C3 (files : List FileInfo) (dry_run : Bool) (oracle oracle2 : Nat → Bool)
    (fs fs2 : FS) (ctr ctr2 : Nat) :
    ((make_hardlinks_within_device files dry_run oracle fs ctr).bytes =
      (((make_hardlinks_within_device files dry_run oracle fs ctr).log.filter
        (fun e => e.2.2)).map (fun e => e.2.1.stat.st_size)).sum) ∧
    ((make_hardlinks_within_device files dry_run oracle fs ctr).log.map
        (fun e => (e.1, e.2.1)) =
      (make_hardlinks_within_device files dry_run oracle2 fs2 ctr2).log.map
        (fun e => (e.1, e.2.1))) ∧
    ((make_hardlinks files dry_run oracle fs ctr).bytes =
      (((make_hardlinks files dry_run oracle fs ctr).log.filter
        (fun e => e.2.2)).map (fun e => e.2.1.stat.st_size)).sum) ∧
    ((make_hardlinks files dry_run oracle fs ctr).log.map (fun e => (e.1, e.2.1)) =
      (make_hardlinks files dry_run oracle2 fs2 ctr2).log.map (fun e => (e.1, e.2.1))) :=
  ⟨mhd_bytes files dry_run oracle fs ctr,
   mhd_log_proj files dry_run oracle oracle2 fs fs2 ctr ctr2,
   mhAux_bytes _ dry_run oracle fs ctr,
   mhAux_log_proj _ dry_run oracle oracle2 fs fs2 ctr ctr2⟩

/-- C5: the consolidator partitions by device and processes each partition
independently: every `(survivor, target)` pair ever passed to `hardlink`
by `make_hardlinks` lies inside one non-singleton device partition, and
in particular survivor and target always have equal `st_dev`, so the
same-device assertion in `hardlink` never fails. -/
theorem claim_C5 (files : List FileInfo) (dry_run : Bool) (oracle : Nat → Bool) (fs : FS)
    (ctr : Nat) (e : FileInfo × FileInfo × Bool)
    (he : e ∈ (make_hardlinks files dry_run oracle fs ctr).log) :
    e.1.stat.st_dev = e.2.1.stat.st_dev ∧
      ∃ g ∈ filter_solo (group_by_dev files), e.1 ∈ g ∧ e.2.1 ∈ g := by
  obtain ⟨g, hg, fs2, ctr2, he2⟩ := mhAux_log_mem he
  obtain ⟨h1, h2⟩ := mhd_log_mem he2
  refine ⟨?_, g, hg, h1, h2⟩
  rw [filter_solo, List.mem_filter] at hg
  have hgdev := hg.1
  rw [group_by_dev, List.mem_map] at hgdev
  obtain ⟨⟨k, b⟩, hkb, rfl⟩ := hgdev
  have k1 := group_by_bucket_mem hkb h1
  have k2 := group_by_bucket_mem hkb h2
  exact k1.1.trans k2.1.symm

/-- C5 witness: in a concrete run the only attempted pair is
`(exF1, exF2)`, on the same device, inside the one device partition. -/
theorem claim_C5_witness :
    (exF1, exF2, true).1.stat.st_dev = (exF1, exF2, true).2.1.stat.st_dev ∧
      ∃ g ∈ filter_solo (group_by_dev [exF1, exF2]),
        (exF1, exF2, true).1 ∈ g ∧ (exF1, exF2, true).2.1 ∈ g :=
  claim_C5 [exF1, exF2] false oracleT exFs 0 (exF1, exF2, true) (by decide)

/-- C6: for a device partition with at least two distinct inodes, the
survivor is the member with the highest existing link count, ties broken
by first occurrence in input order. -/
theorem claim_C6 (files : List FileInfo) (dry_run : Bool) (oracle : Nat → Bool) (fs : FS)
    (ctr : Nat) (f g : FileInfo) (hf : f ∈ files) (hg : g ∈ files)
    (hne : f.stat.st_ino ≠ g.stat.st_ino) :
    ∃ m l1 l2,
      (make_hardlinks_within_device files dry_run oracle fs ctr).survivor = some m ∧
      files = l1 ++ m :: l2 ∧
      (∀ x ∈ files, x.stat.st_nlink ≤ m.stat.st_nlink) ∧
      (∀ x ∈ l1, x.stat.st_nlink < m.stat.st_nlink) := by
  have hlen : ¬ (group_by files (fun f => f.stat.st_ino)).length ≤ 1 := by
    intro hle
    exact hne (group_by_le_one_all_same hle f hf g hg)
  cases hmax : pyMaxNlink files with
  | none =>
    match files, hf, hmax with
    | [], hf, _ => exact absurd hf (List.not_mem_nil f)
  | some master =>
    obtain ⟨hall, l1, l2, heq, hl1⟩ := pyMaxNlink_eq_some hmax
    refine ⟨master, l1, l2, ?_, heq, hall, hl1⟩
    unfold make_hardlinks_within_device
    rw [if_neg hlen, hmax]
    exact runTargets_survivor master dry_run oracle _ fs ctr

/-- C6 witness: with two equal-link-count members on distinct inodes, the
first member is chosen as survivor. -/
theorem claim_C6_witness :
    ∃ m l1 l2,
      (make_hardlinks_within_device [exF1, exF2] false oracleT exFs 0).survivor = some m ∧
      [exF1, exF2] = l1 ++ m :: l2 ∧
      (∀ x ∈ [exF1, exF2], x.stat.st_nlink ≤ m.stat.st_nlink) ∧
      (∀ x ∈ l1, x.stat.st_nlink < m.stat.st_nlink) :=
  claim_C6 [exF1, exF2] false oracleT exFs 0 exF1 exF2 (by decide) (by decide) (by decide)

theorem alookup_aerase {β : Type} (m : List (FName × β)) (a p : FName) :
    alookup (aerase m a) p = if p = a then none else alookup m p := by
  induction m with
  | nil => simp [aerase, alookup]
  | cons hd tl ih =>
    cases hd with
    | mk q v =>
      by_cases hqa : q = a
      · subst hqa
        rw [show aerase ((q, v) :: tl) q = aerase tl q by simp [aerase]]
        rw [ih]
        by_cases hpq : p = q
        · subst hpq
          simp
        · simp [alookup, hpq, Ne.symm hpq]
      · rw [show aerase ((q, v) :: tl) a = (q, v) :: aerase tl a by simp [aerase, hqa]]
        by_cases hpq : q = p
        · subst hpq
          rw [show alookup ((q, v) :: aerase tl a) q = some v by simp [alookup]]
          rw [show alookup ((q, v) :: tl) q = some v by simp [alookup]]
          rw [if_neg hqa]
        · rw [show alookup ((q, v) :: aerase tl a) p = alookup (aerase tl a) p by
            simp [alookup, hpq]]
          rw [show alookup ((q, v) :: tl) p = alookup tl p by simp [alookup, hpq]]
          exact ih

theorem alookup_append {β : Type} (m n : List (FName × β)) (p : FName) :
    alookup (m ++ n) p =
      match alookup m p with
      | some v => some v
      | none => alookup n p := by
  induction m with
  | nil => simp [alookup]
  | cons hd tl ih =>
    cases hd with
    | mk q v =>
      by_cases hpq : q = p
      · subst hpq
        simp [alookup]
      · rw [List.cons_append]
        rw [show alookup ((q, v) :: (tl ++ n)) p = alookup (tl ++ n) p by
          simp [alookup, hpq]]
        rw [show alookup ((q, v) :: tl) p = alookup tl p by simp [alookup, hpq]]
        exact ih

/-- Lookup after the name-table update of a successful rename. -/
theorem alookup_rename_names {ns : List (FName × Nat)} {a b : FName} {i : Nat} (p : FName) :
    alookup (aerase (aerase ns a) b ++ [(b, i)]) p =
      if p = b then some i else if p = a then none else alookup ns p := by
  rw [alookup_append, alookup_aerase, alookup_aerase]
  by_cases hpb : p = b
  · subst hpb
    simp [alookup]
  · by_cases hpa : p = a
    · subst hpa
      simp [alookup, hpb, Ne.symm hpb]
    · simp only [if_neg hpb, if_neg hpa]
      cases hl : alookup ns p with
      | none => simp [alookup, hpb, Ne.symm hpb]
      | some v => simp

/-- Lookup after the name-table update of a successful link. -/
theorem alookup_link_names {ns : List (FName × Nat)} {b : FName} {i : Nat}
    (hb : alookup ns b = none) (p : FName) :
    alookup (ns ++ [(b, i)]) p = if p = b then some i else alookup ns p := by
  rw [alookup_append]
  by_cases hpb : p = b
  · subst hpb
    rw [hb]
    simp [alookup]
  · rw [if_neg hpb]
    cases hl : alookup ns p with
    | none => simp [alookup, Ne.symm hpb]
    | some v => simp

theorem bak_ne_self (p : FName) : ¬ p ++ bakSuffix = p := by
  intro h
  have := congrArg List.length h
  rw [List.length_append] at this
  rw [show bakSuffix.length = 4 from rfl] at this
  omega

theorem tryExec_some {oracle : Nat → Bool} {fs : FS} {ctr : Nat} {op : FsOp} {fs1 : FS}
    (h : tryExec oracle fs ctr op = some fs1) : applyOp fs op = some fs1 := by
  rw [tryExec] at h
  by_cases ho : oracle ctr = true
  · rw [if_pos ho] at h
    exact h
  · rw [if_neg ho] at h
    exact absurd h (by simp)

theorem applyOp_rename_eq {fs : FS} {a b : FName} {i : Nat} {fs1 : FS}
    (ha : alookup fs.names a = some i) (h : applyOp fs (FsOp.rename a b) = some fs1) :
    fs1 = ⟨aerase (aerase fs.names a) b ++ [(b, i)], fs.data⟩ := by
  simp only [applyOp, ha] at h
  exact (Option.some.inj h).symm

theorem applyOp_link_eq {fs : FS} {a b : FName} {i : Nat} {fs1 : FS}
    (ha : alookup fs.names a = some i) (hb : alookup fs.names b = none)
    (h : applyOp fs (FsOp.link a b) = some fs1) :
    fs1 = ⟨fs.names ++ [(b, i)], fs.data⟩ := by
  simp only [applyOp, ha, hb] at h
  exact (Option.some.inj h).symm

theorem applyOp_unlink_eq {fs : FS} {a : FName} {i : Nat} {fs1 : FS}
    (ha : alookup fs.names a = some i) (h : applyOp fs (FsOp.unlink a) = some fs1) :
    fs1 = ⟨aerase fs.names a, fs.data⟩ := by
  simp only [applyOp, ha] at h
  exact (Option.some.inj h).symm

theorem contentsPreserved_intro {fs0 fs1 : FS}
    (h : ∀ p i, alookup fs0.names p = some i →
      ∃ q j, alookup fs1.names q = some j ∧ alookup fs1.data j = alookup fs0.data i) :
    contentsPreserved fs0 fs1 := by
  intro c p hp
  rw [pathContent] at hp
  cases hl : alookup fs0.names p with
  | none =>
    simp only [hl] at hp
    exact absurd hp (by simp)
  | some i =>
    simp only [hl] at hp
    obtain ⟨q, j, hq, hdata⟩ := h p i hl
    refine ⟨q, ?_⟩
    rw [pathContent]
    simp only [hq, hdata]
    exact hp

theorem contentsPreserved_refl (fs : FS) : contentsPreserved fs fs :=
  fun c p hp => ⟨p, hp⟩

/-- Case analysis of a non-dry `hardlink` run: either nothing was executed
and the filesystem is untouched, or a prefix of
rename-backup / link / unlink-backup was executed, with the run failing
unless all three succeeded. -/
theorem hardlink_split (src dest : FileInfo) (oracle : Nat → Bool) (fs : FS) (ctr : Nat) :
    ((hardlink src dest false oracle fs ctr).exec = [] ∧
      (hardlink src dest false oracle fs ctr).states = [] ∧
      (hardlink src dest false oracle fs ctr).fs = fs ∧
      (hardlink src dest false oracle fs ctr).ok = false) ∨
    (∃ fs1, applyOp fs (FsOp.rename dest.filename (dest.filename ++ bakSuffix)) = some fs1 ∧
      (hardlink src dest false oracle fs ctr).exec =
        [FsOp.rename dest.filename (dest.filename ++ bakSuffix)] ∧
      (hardlink src dest false oracle fs ctr).states = [fs1] ∧
      (hardlink src dest false oracle fs ctr).fs = fs1 ∧
      (hardlink src dest false oracle fs ctr).ok = false) ∨
    (∃ fs1 fs2, applyOp fs (FsOp.rename dest.filename (dest.filename ++ bakSuffix)) = some fs1 ∧
      applyOp fs1 (FsOp.link src.filename dest.filename) = some fs2 ∧
      (hardlink src dest false oracle fs ctr).exec =
        [FsOp.rename dest.filename (dest.filename ++ bakSuffix),
         FsOp.link src.filename dest.filename] ∧
      (hardlink src dest false oracle fs ctr).states = [fs1, fs2] ∧
      (hardlink src dest false oracle fs ctr).fs = fs2 ∧
      (hardlink src dest false oracle fs ctr).ok = false) ∨
    (∃ fs1 fs2 fs3, applyOp fs (FsOp.rename dest.filename (dest.filename ++ bakSuffix)) = some fs1 ∧
      applyOp fs1 (FsOp.link src.filename dest.filename) = some fs2 ∧
      applyOp fs2 (FsOp.unlink (dest.filename ++ bakSuffix)) = some fs3 ∧
      (hardlink src dest false oracle fs ctr).exec =
        [FsOp.rename dest.filename (dest.filename ++ bakSuffix),
         FsOp.link src.filename dest.filename,
         FsOp.unlink (dest.filename ++ bakSuffix)] ∧
      (hardlink src dest false oracle fs ctr).states = [fs1, fs2, fs3] ∧
      (hardlink src dest false oracle fs ctr).fs = fs3 ∧
      (hardlink src dest false oracle fs ctr).ok = true) := by
  by_cases hdev : src.stat.st_dev ≠ dest.stat.st_dev
  · have hu : hardlink src dest false oracle fs ctr = ⟨false, 0, fs, ctr, [], []⟩ := by
      unfold hardlink
      rw [if_pos hdev]
    exact Or.inl ⟨by rw [hu], by rw [hu], by rw [hu], by rw [hu]⟩
  · cases ht1 : tryExec oracle fs ctr
        (FsOp.rename dest.filename (dest.filename ++ bakSuffix)) with
    | none =>
      have hu : hardlink src dest false oracle fs ctr = ⟨false, 0, fs, ctr + 1, [], []⟩ := by
        unfold hardlink
        rw [if_neg hdev]
        simp only [Bool.false_eq_true, if_false, ht1]
      exact Or.inl ⟨by rw [hu], by rw [hu], by rw [hu], by rw [hu]⟩
    | some fs1 =>
      cases ht2 : tryExec oracle fs1 (ctr + 1) (FsOp.link src.filename dest.filename) with
      | none =>
        have hu : hardlink src dest false oracle fs ctr =
            ⟨false, 0, fs1, ctr + 2,
              [FsOp.rename dest.filename (dest.filename ++ bakSuffix)], [fs1]⟩ := by
          unfold hardlink
          rw [if_neg hdev]
          simp only [Bool.false_eq_true, if_false, ht1, ht2]
        exact Or.inr (Or.inl ⟨fs1, tryExec_some ht1,
          by rw [hu], by rw [hu], by rw [hu], by rw [hu]⟩)
      | some fs2 =>
        cases ht3 : tryExec oracle fs2 (ctr + 2)
            (FsOp.unlink (dest.filename ++ bakSuffix)) with
        | none =>
          have hu : hardlink src dest false oracle fs ctr =
              ⟨false, 0, fs2, ctr + 3,
                [FsOp.rename dest.filename (dest.filename ++ bakSuffix),
                 FsOp.link src.filename dest.filename], [fs1, fs2]⟩ := by
            unfold hardlink
            rw [if_neg hdev]
            simp only [Bool.false_eq_true, if_false, ht1, ht2, ht3]
          exact Or.inr (Or.inr (Or.inl ⟨fs1, fs2, tryExec_some ht1, tryExec_some ht2,
            by rw [hu], by rw [hu], by rw [hu], by rw [hu]⟩))
        | some fs3 =>
          have hu : hardlink src dest false oracle fs ctr =
              ⟨true, dest.stat.st_size, fs3, ctr + 3,
                [FsOp.rename dest.filename (dest.filename ++ bakSuffix),
                 FsOp.link src.filename dest.filename,
                 FsOp.unlink (dest.filename ++ bakSuffix)], [fs1, fs2, fs3]⟩ := by
            unfold hardlink
            rw [if_neg hdev]
            simp only [Bool.false_eq_true, if_false, ht1, ht2, ht3]
          exact Or.inr (Or.inr (Or.inr ⟨fs1, fs2, fs3,
            tryExec_some ht1, tryExec_some ht2, tryExec_some ht3,
            by rw [hu], by rw [hu], by rw [hu], by rw [hu]⟩))

/-- Lookup table after a successful rename of `destf` to its backup. -/
theorem alookup_after_rename {fs : FS} {destf : FName} {i_d : Nat} (p : FName)
    (hd : alookup fs.names destf = some i_d) :
    alookup (aerase (aerase fs.names destf) (destf ++ bakSuffix) ++
      [(destf ++ bakSuffix, i_d)]) p =
      if p = destf ++ bakSuffix then some i_d
      else if p = destf then none else alookup fs.names p :=
  alookup_rename_names p

/-- Content preservation by the rename-to-backup step. -/
theorem pres_after_rename {fs : FS} {destf : FName} {i_d : Nat}
    (hd : alookup fs.names destf = some i_d)
    (hbak : alookup fs.names (destf ++ bakSuffix) = none) :
    contentsPreserved fs
      ⟨aerase (aerase fs.names destf) (destf ++ bakSuffix) ++
        [(destf ++ bakSuffix, i_d)], fs.data⟩ := by
  refine contentsPreserved_intro ?_
  intro p i hpi
  by_cases hp1 : p = destf
  · subst hp1
    rw [hd] at hpi
    obtain rfl : i_d = i := Option.some.inj hpi
    exact ⟨p ++ bakSuffix, i_d,
      by rw [show (FS.mk _ fs.data).names = _ from rfl, alookup_after_rename _ hd,
        if_pos rfl], rfl⟩
  · by_cases hp2 : p = destf ++ bakSuffix
    · subst hp2
      rw [hbak] at hpi
      exact absurd hpi (by simp)
    · exact ⟨p, i, by rw [show (FS.mk _ fs.data).names = _ from rfl,
        alookup_after_rename _ hd, if_neg hp2, if_neg hp1]; exact hpi, rfl⟩

/-- Lookup table after rename-to-backup then link-to-survivor. -/
theorem alookup_after_link {fs : FS} {destf : FName} {i_d i_s : Nat} (p : FName)
    (hd : alookup fs.names destf = some i_d) :
    alookup ((aerase (aerase fs.names destf) (destf ++ bakSuffix) ++
      [(destf ++ bakSuffix, i_d)]) ++ [(destf, i_s)]) p =
      if p = destf then some i_s
      else if p = destf ++ bakSuffix then some i_d else alookup fs.names p := by
  have hdb : ¬ destf = destf ++ bakSuffix := fun h => bak_ne_self destf h.symm
  have hdest1 : alookup (aerase (aerase fs.names destf) (destf ++ bakSuffix) ++
      [(destf ++ bakSuffix, i_d)]) destf = none := by
    rw [alookup_after_rename _ hd, if_neg hdb, if_pos rfl]
  rw [alookup_link_names hdest1 p, alookup_after_rename _ hd]
  by_cases hp1 : p = destf
  · simp [hp1]
  · by_cases hp2 : p = destf ++ bakSuffix
    · simp [hp1, hp2]
    · simp [hp1, hp2]

/-- Content preservation by rename-to-backup then link-to-survivor. -/
theorem pres_after_link {fs : FS} {destf : FName} {i_d i_s : Nat}
    (hd : alookup fs.names destf = some i_d)
    (hbak : alookup fs.names (destf ++ bakSuffix) = none) :
    contentsPreserved fs
      ⟨(aerase (aerase fs.names destf) (destf ++ bakSuffix) ++
        [(destf ++ bakSuffix, i_d)]) ++ [(destf, i_s)], fs.data⟩ := by
  have hdb : ¬ destf = destf ++ bakSuffix := fun h => bak_ne_self destf h.symm
  refine contentsPreserved_intro ?_
  intro p i hpi
  by_cases hp1 : p = destf
  · subst hp1
    rw [hd] at hpi
    obtain rfl : i_d = i := Option.some.inj hpi
    exact ⟨p ++ bakSuffix, i_d,
      by rw [show (FS.mk _ fs.data).names = _ from rfl, alookup_after_link _ hd,
        if_neg (fun h => hdb h.symm), if_pos rfl], rfl⟩
  · by_cases hp2 : p = destf ++ bakSuffix
    · subst hp2
      rw [hbak] at hpi
      exact absurd hpi (by simp)
    · exact ⟨p, i, by rw [show (FS.mk _ fs.data).names = _ from rfl,
        alookup_after_link _ hd, if_neg hp1, if_neg hp2]; exact hpi, rfl⟩

/-- Lookup table after the full rename, link, unlink-backup sequence. -/
theorem alookup_after_unlink {fs : FS} {destf : FName} {i_d i_s : Nat} (p : FName)
    (hd : alookup fs.names destf = some i_d) :
    alookup (aerase ((aerase (aerase fs.names destf) (destf ++ bakSuffix) ++
      [(destf ++ bakSuffix, i_d)]) ++ [(destf, i_s)]) (destf ++ bakSuffix)) p =
      if p = destf ++ bakSuffix then none
      else if p = destf then some i_s else alookup fs.names p := by
  rw [alookup_aerase]
  by_cases hp2 : p = destf ++ bakSuffix
  · simp [hp2]
  · rw [if_neg hp2, if_neg hp2, alookup_after_link _ hd]
    by_cases hp1 : p = destf
    · simp [hp1]
    · simp [hp1, hp2]

/-- Content preservation by the full replacement sequence: the survivor's
content equals the target's, so unlinking the backup loses nothing. -/
theorem pres_after_unlink {fs : FS} {destf : FName} {i_d i_s : Nat} {c : List Nat}
    (hd : alookup fs.names destf = some i_d)
    (hcd : alookup fs.data i_d = some c)
    (hcs : alookup fs.data i_s = some c)
    (hbak : alookup fs.names (destf ++ bakSuffix) = none) :
    contentsPreserved fs
      ⟨aerase ((aerase (aerase fs.names destf) (destf ++ bakSuffix) ++
        [(destf ++ bakSuffix, i_d)]) ++ [(destf, i_s)]) (destf ++ bakSuffix),
        fs.data⟩ := by
  have hdb : ¬ destf = destf ++ bakSuffix := fun h => bak_ne_self destf h.symm
  refine contentsPreserved_intro ?_
  intro p i hpi
  by_cases hp1 : p = destf
  · subst hp1
    rw [hd] at hpi
    obtain rfl : i_d = i := Option.some.inj hpi
    refine ⟨p, i_s, ?_, ?_⟩
    · rw [show (FS.mk _ fs.data).names = _ from rfl, alookup_after_unlink _ hd,
        if_neg hdb, if_pos rfl]
    · rw [show (FS.mk _ fs.data).data = fs.data from rfl, hcs, hcd]
  · by_cases hp2 : p = destf ++ bakSuffix
    · subst hp2
      rw [hbak] at hpi
      exact absurd hpi (by simp)
    · exact ⟨p, i, by rw [show (FS.mk _ fs.data).names = _ from rfl,
        alookup_after_unlink _ hd, if_neg hp2, if_neg hp1]; exact hpi, rfl⟩

/-- C2: during hardlink consolidation of one target, the replacement
renames the target to a backup name before creating the new link, the
only removal performed is of the backup after the link to the survivor
succeeded, at no point is the last remaining copy of any file content
removed, and on failure at any step the backup (if created) is left in
place. -/
theorem claim_C2 (src dest : FileInfo) (oracle : Nat → Bool) (fs : FS) (ctr : Nat)
    (i_d i_s : Nat) (c : List Nat)
    (hd : alookup fs.names dest.filename = some i_d)
    (hs : alookup fs.names src.filename = some i_s)
    (hcd : alookup fs.data i_d = some c)
    (hcs : alookup fs.data i_s = some c)
    (hbak : alookup fs.names (dest.filename ++ bakSuffix) = none)
    (hsd : ¬ src.filename = dest.filename) :
    hardlinkSafe src dest oracle fs ctr i_d := by
  have hdb : ¬ dest.filename = dest.filename ++ bakSuffix :=
    fun h => bak_ne_self dest.filename h.symm
  have hsb : ¬ src.filename = dest.filename ++ bakSuffix := by
    intro h
    rw [h, hbak] at hs
    exact absurd hs (by simp)
  rcases hardlink_split src dest oracle fs ctr with
    ⟨he, hst, hfs, hok⟩ | ⟨fs1, ha1, he, hst, hfs, hok⟩ |
    ⟨fs1, fs2, ha1, ha2, he, hst, hfs, hok⟩ |
    ⟨fs1, fs2, fs3, ha1, ha2, ha3, he, hst, hfs, hok⟩
  · refine ⟨Or.inl he, ?_, ?_, ?_⟩
    · intro st hstm
      rw [hst] at hstm
      exact absurd hstm (by simp)
    · rw [hfs]
      exact contentsPreserved_refl fs
    · intro _ hmem
      rw [he] at hmem
      exact absurd hmem (by simp)
  · have hfs1eq := applyOp_rename_eq hd ha1
    have hl1 : ∀ p, alookup fs1.names p =
        if p = dest.filename ++ bakSuffix then some i_d
        else if p = dest.filename then none else alookup fs.names p := by
      rw [hfs1eq]
      exact fun p => alookup_after_rename p hd
    have hpres1 : contentsPreserved fs fs1 := by
      rw [hfs1eq]
      exact pres_after_rename hd hbak
    refine ⟨Or.inr (Or.inl he), ?_, ?_, ?_⟩
    · intro st hstm
      rw [hst, List.mem_singleton] at hstm
      rw [hstm]
      exact hpres1
    · rw [hfs]
      exact hpres1
    · intro _ _
      rw [hfs, hl1, if_pos rfl]
  · have hfs1eq := applyOp_rename_eq hd ha1
    have hl1 : ∀ p, alookup fs1.names p =
        if p = dest.filename ++ bakSuffix then some i_d
        else if p = dest.filename then none else alookup fs.names p := by
      rw [hfs1eq]
      exact fun p => alookup_after_rename p hd
    have hpres1 : contentsPreserved fs fs1 := by
      rw [hfs1eq]
      exact pres_after_rename hd hbak
    have hsrc1 : alookup fs1.names src.filename = some i_s := by
      rw [hl1, if_neg hsb, if_neg hsd]
      exact hs
    have hdest1 : alookup fs1.names dest.filename = none := by
      rw [hl1, if_neg hdb, if_pos rfl]
    have hfs2eq := applyOp_link_eq hsrc1 hdest1 ha2
    simp only [hfs1eq] at hfs2eq
    have hl2 : ∀ p, alookup fs2.names p =
        if p = dest.filename then some i_s
        else if p = dest.filename ++ bakSuffix then some i_d
        else alookup fs.names p := by
      rw [hfs2eq]
      exact fun p => alookup_after_link p hd
    have hpres2 : contentsPreserved fs fs2 := by
      rw [hfs2eq]
      exact pres_after_link hd hbak
    refine ⟨Or.inr (Or.inr (Or.inl he)), ?_, ?_, ?_⟩
    · intro st hstm
      rw [hst, List.mem_cons, List.mem_singleton] at hstm
      rcases hstm with rfl | rfl
      · exact hpres1
      · exact hpres2
    · rw [hfs]
      exact hpres2
    · intro _ _
      rw [hfs, hl2, if_neg (fun h => hdb h.symm), if_pos rfl]
  · have hfs1eq := applyOp_rename_eq hd ha1
    have hl1 : ∀ p, alookup fs1.names p =
        if p = dest.filename ++ bakSuffix then some i_d
        else if p = dest.filename then none else alookup fs.names p := by
      rw [hfs1eq]
      exact fun p => alookup_after_rename p hd
    have hpres1 : contentsPreserved fs fs1 := by
      rw [hfs1eq]
      exact pres_after_rename hd hbak
    have hsrc1 : alookup fs1.names src.filename = some i_s := by
      rw [hl1, if_neg hsb, if_neg hsd]
      exact hs
    have hdest1 : alookup fs1.names dest.filename = none := by
      rw [hl1, if_neg hdb, if_pos rfl]
    have hfs2eq := applyOp_link_eq hsrc1 hdest1 ha2
    simp only [hfs1eq] at hfs2eq
    have hl2 : ∀ p, alookup fs2.names p =
        if p = dest.filename then some i_s
        else if p = dest.filename ++ bakSuffix then some i_d
        else alookup fs.names p := by
      rw [hfs2eq]
      exact fun p => alookup_after_link p hd
    have hpres2 : contentsPreserved fs fs2 := by
      rw [hfs2eq]
      exact pres_after_link hd hbak
    have hbak2 : alookup fs2.names (dest.filename ++ bakSuffix) = some i_d := by
      rw [hl2, if_neg (fun h => hdb h.symm), if_pos rfl]
    have hfs3eq := applyOp_unlink_eq hbak2 ha3
    simp only [hfs2eq] at hfs3eq
    have hpres3 : contentsPreserved fs fs3 := by
      rw [hfs3eq]
      exact pres_after_unlink hd hcd hcs hbak
    refine ⟨Or.inr (Or.inr (Or.inr he)), ?_, ?_, ?_⟩
    · intro st hstm
      rw [hst, List.mem_cons, List.mem_cons, List.mem_singleton] at hstm
      rcases hstm with rfl | rfl | rfl
      · exact hpres1
      · exact hpres2
      · exact hpres3
    · rw [hfs]
      exact hpres3
    · intro hfalse _
      rw [hok] at hfalse
      exact absurd hfalse (by simp)

/-- C2 witness: a concrete fully successful replacement of `exF2` by a
link to `exF1` satisfies the safety contract. -/
theorem claim_C2_witness : hardlinkSafe exF1 exF2 oracleT exFs 0 12 :=
  claim_C2 exF1 exF2 oracleT exFs 0 12 11 [7, 7] rfl rfl rfl rfl rfl (by decide)

theorem applyOp_rename_inv {fs : FS} {a b : FName} {fs1 : FS}
    (h : applyOp fs (FsOp.rename a b) = some fs1) :
    ∃ i, alookup fs.names a = some i ∧
      fs1 = ⟨aerase (aerase fs.names a) b ++ [(b, i)], fs.data⟩ := by
  cases hl : alookup fs.names a with
  | none =>
    simp only [applyOp, hl] at h
    exact absurd h (by simp)
  | some i =>
    simp only [applyOp, hl] at h
    exact ⟨i, rfl, (Option.some.inj h).symm⟩

theorem applyOp_link_inv {fs : FS} {a b : FName} {fs1 : FS}
    (h : applyOp fs (FsOp.link a b) = some fs1) :
    ∃ i, alookup fs.names a = some i ∧ alookup fs.names b = none ∧
      fs1 = ⟨fs.names ++ [(b, i)], fs.data⟩ := by
  cases hl : alookup fs.names a with
  | none =>
    simp only [applyOp, hl] at h
    exact absurd h (by simp)
  | some i =>
    cases hlb : alookup fs.names b with
    | none =>
      simp only [applyOp, hl, hlb] at h
      exact ⟨i, rfl, rfl, (Option.some.inj h).symm⟩
    | some j =>
      simp only [applyOp, hl, hlb] at h
      exact absurd h (by simp)

theorem applyOp_unlink_inv {fs : FS} {a : FName} {fs1 : FS}
    (h : applyOp fs (FsOp.unlink a) = some fs1) :
    ∃ i, alookup fs.names a = some i ∧ fs1 = ⟨aerase fs.names a, fs.data⟩ := by
  cases hl : alookup fs.names a with
  | none =>
    simp only [applyOp, hl] at h
    exact absurd h (by simp)
  | some i =>
    simp only [applyOp, hl] at h
    exact ⟨i, rfl, (Option.some.inj h).symm⟩

/-- A `hardlink` call, however it ends, touches only the target's path and
the target's backup path. -/
theorem hardlink_frame (src dest : FileInfo) (oracle : Nat → Bool) (fs : FS) (ctr : Nat)
    (p : FName) (hp1 : ¬ p = dest.filename) (hp2 : ¬ p = dest.filename ++ bakSuffix) :
    alookup (hardlink src dest false oracle fs ctr).fs.names p = alookup fs.names p := by
  rcases hardlink_split src dest oracle fs ctr with
    ⟨he, hst, hfs, hok⟩ | ⟨fs1, ha1, he, hst, hfs, hok⟩ |
    ⟨fs1, fs2, ha1, ha2, he, hst, hfs, hok⟩ |
    ⟨fs1, fs2, fs3, ha1, ha2, ha3, he, hst, hfs, hok⟩
  · rw [hfs]
  · obtain ⟨i, hdi, hfs1eq⟩ := applyOp_rename_inv ha1
    rw [hfs, hfs1eq]
    rw [show (FS.mk (aerase (aerase fs.names dest.filename)
        (dest.filename ++ bakSuffix) ++ [(dest.filename ++ bakSuffix, i)])
        fs.data).names = aerase (aerase fs.names dest.filename)
        (dest.filename ++ bakSuffix) ++ [(dest.filename ++ bakSuffix, i)] from rfl]
    rw [alookup_after_rename p hdi, if_neg hp2, if_neg hp1]
  · obtain ⟨i, hdi, hfs1eq⟩ := applyOp_rename_inv ha1
    rw [hfs1eq] at ha2
    obtain ⟨j, hsj, hbn, hfs2eq⟩ := applyOp_link_inv ha2
    rw [hfs, hfs2eq]
    rw [show (FS.mk ((FS.mk (aerase (aerase fs.names dest.filename)
        (dest.filename ++ bakSuffix) ++ [(dest.filename ++ bakSuffix, i)])
        fs.data).names ++ [(dest.filename, j)]) (FS.mk _ fs.data).data).names =
        (aerase (aerase fs.names dest.filename) (dest.filename ++ bakSuffix) ++
          [(dest.filename ++ bakSuffix, i)]) ++ [(dest.filename, j)] from rfl]
    rw [alookup_after_link p hdi, if_neg hp1, if_neg hp2]
  · obtain ⟨i, hdi, hfs1eq⟩ := applyOp_rename_inv ha1
    rw [hfs1eq] at ha2
    obtain ⟨j, hsj, hbn, hfs2eq⟩ := applyOp_link_inv ha2
    rw [hfs2eq] at ha3
    obtain ⟨k, hbk, hfs3eq⟩ := applyOp_unlink_inv ha3
    rw [hfs, hfs3eq]
    rw [show (FS.mk (aerase (FS.mk ((FS.mk _ fs.data).names ++ [(dest.filename, j)])
        (FS.mk _ fs.data).data).names (dest.filename ++ bakSuffix))
        (FS.mk _ (FS.mk _ fs.data).data).data).names =
        aerase ((aerase (aerase fs.names dest.filename) (dest.filename ++ bakSuffix) ++
          [(dest.filename ++ bakSuffix, i)]) ++ [(dest.filename, j)])
          (dest.filename ++ bakSuffix) from rfl]
    rw [alookup_after_unlink p hdi, if_neg hp2, if_neg hp1]

/-- A fully successful `hardlink` call leaves the target's path naming the
survivor's inode, removes the backup name again, and implies the target
path existed beforehand. -/
theorem hardlink_success_links {src dest : FileInfo} {oracle : Nat → Bool} {fs : FS}
    {ctr : Nat} {i_m : Nat}
    (hok : (hardlink src dest false oracle fs ctr).ok = true)
    (hm : alookup fs.names src.filename = some i_m)
    (hsd : ¬ src.filename = dest.filename)
    (hbak : alookup fs.names (dest.filename ++ bakSuffix) = none) :
    alookup (hardlink src dest false oracle fs ctr).fs.names dest.filename = some i_m ∧
    alookup (hardlink src dest false oracle fs ctr).fs.names
      (dest.filename ++ bakSuffix) = none ∧
    (∃ i, alookup fs.names dest.filename = some i) := by
  have hdb : ¬ dest.filename = dest.filename ++ bakSuffix :=
    fun h => bak_ne_self dest.filename h.symm
  have hsb : ¬ src.filename = dest.filename ++ bakSuffix := by
    intro h
    rw [h, hbak] at hm
    exact absurd hm (by simp)
  rcases hardlink_split src dest oracle fs ctr with
    ⟨he, hst, hfs, hoks⟩ | ⟨fs1, ha1, he, hst, hfs, hoks⟩ |
    ⟨fs1, fs2, ha1, ha2, he, hst, hfs, hoks⟩ |
    ⟨fs1, fs2, fs3, ha1, ha2, ha3, he, hst, hfs, hoks⟩
  · rw [hok] at hoks
    exact absurd hoks (by simp)
  · rw [hok] at hoks
    exact absurd hoks (by simp)
  · rw [hok] at hoks
    exact absurd hoks (by simp)
  · obtain ⟨i, hdi, hfs1eq⟩ := applyOp_rename_inv ha1
    rw [hfs1eq] at ha2
    obtain ⟨j, hsj, hbn, hfs2eq⟩ := applyOp_link_inv ha2
    have hji : j = i_m := by
      rw [show (FS.mk (aerase (aerase fs.names dest.filename)
          (dest.filename ++ bakSuffix) ++ [(dest.filename ++ bakSuffix, i)])
          fs.data).names = aerase (aerase fs.names dest.filename)
          (dest.filename ++ bakSuffix) ++ [(dest.filename ++ bakSuffix, i)] from rfl] at hsj
      rw [alookup_after_rename src.filename hdi, if_neg hsb, if_neg hsd, hm] at hsj
      exact (Option.some.inj hsj).symm
    subst hji
    rw [hfs2eq] at ha3
    obtain ⟨k, hbk, hfs3eq⟩ := applyOp_unlink_inv ha3
    rw [hfs, hfs3eq]
    refine ⟨?_, ?_, ⟨i, hdi⟩⟩
    · rw [show (FS.mk (aerase (FS.mk ((FS.mk _ fs.data).names ++ [(dest.filename, j)])
          (FS.mk _ fs.data).data).names (dest.filename ++ bakSuffix))
          (FS.mk _ (FS.mk _ fs.data).data).data).names =
          aerase ((aerase (aerase fs.names dest.filename)
            (dest.filename ++ bakSuffix) ++ [(dest.filename ++ bakSuffix, i)]) ++
            [(dest.filename, j)]) (dest.filename ++ bakSuffix) from rfl]
      rw [alookup_after_unlink dest.filename hdi, if_neg hdb, if_pos rfl]
    · rw [show (FS.mk (aerase (FS.mk ((FS.mk _ fs.data).names ++ [(dest.filename, j)])
          (FS.mk _ fs.data).data).names (dest.filename ++ bakSuffix))
          (FS.mk _ (FS.mk _ fs.data).data).data).names =
          aerase ((aerase (aerase fs.names dest.filename)
            (dest.filename ++ bakSuffix) ++ [(dest.filename ++ bakSuffix, i)]) ++
            [(dest.filename, j)]) (dest.filename ++ bakSuffix) from rfl]
      rw [alookup_after_unlink (dest.filename ++ bakSuffix) hdi, if_pos rfl]

/-- A fully successful target run links every target's path to the
survivor's inode and leaves every other path alone. -/
theorem runTargets_success_relink (master : FileInfo) (oracle : Nat → Bool)
    (ts : List FileInfo) (fs : FS) (ctr : Nat) (i_m : Nat)
    (hm : alookup fs.names master.filename = some i_m)
    (hbaks : ∀ t ∈ ts, alookup fs.names (t.filename ++ bakSuffix) = none)
    (hmne : ∀ t ∈ ts, ¬ master.filename = t.filename)
    (hpair : List.Pairwise (fun a b => ¬ a.filename = b.filename) ts)
    (hfull : ∀ e ∈ (runTargets master false oracle ts fs ctr).log, e.2.2 = true) :
    (∀ t ∈ ts,
      alookup (runTargets master false oracle ts fs ctr).fs.names t.filename =
        some i_m) ∧
    (∀ p, (∀ t ∈ ts, ¬ p = t.filename) → (∀ t ∈ ts, ¬ p = t.filename ++ bakSuffix) →
      alookup (runTargets master false oracle ts fs ctr).fs.names p =
        alookup fs.names p) := by
  induction ts generalizing fs ctr with
  | nil =>
    exact ⟨fun t ht => absurd ht (List.not_mem_nil t), fun p _ _ => rfl⟩
  | cons t rest ih =>
    have hlog : (runTargets master false oracle (t :: rest) fs ctr).log =
        (master, t, (hardlink master t false oracle fs ctr).ok) ::
          (runTargets master false oracle rest
            (hardlink master t false oracle fs ctr).fs
            (hardlink master t false oracle fs ctr).ctr).log := rfl
    have hfinal : (runTargets master false oracle (t :: rest) fs ctr).fs =
        (runTargets master false oracle rest
          (hardlink master t false oracle fs ctr).fs
          (hardlink master t false oracle fs ctr).ctr).fs := rfl
    have hok1 : (hardlink master t false oracle fs ctr).ok = true := by
      have := hfull (master, t, (hardlink master t false oracle fs ctr).ok)
        (by rw [hlog]; exact List.mem_cons_self _ _)
      exact this
    obtain ⟨hta, hbakgone, it, htsome⟩ := hardlink_success_links hok1 hm
      (hmne t (List.mem_cons_self t rest)) (hbaks t (List.mem_cons_self t rest))
    have hmbak : ¬ master.filename = t.filename ++ bakSuffix := by
      intro h
      rw [h, hbaks t (List.mem_cons_self t rest)] at hm
      exact absurd hm (by simp)
    have hm2 : alookup (hardlink master t false oracle fs ctr).fs.names
        master.filename = some i_m := by
      rw [hardlink_frame master t oracle fs ctr master.filename
        (hmne t (List.mem_cons_self t rest)) hmbak]
      exact hm
    have hheadpair : ∀ b ∈ rest, ¬ t.filename = b.filename :=
      (List.pairwise_cons.mp hpair).1
    have hpair2 : List.Pairwise (fun a b => ¬ a.filename = b.filename) rest :=
      (List.pairwise_cons.mp hpair).2
    have hbaks2 : ∀ t2 ∈ rest,
        alookup (hardlink master t false oracle fs ctr).fs.names
          (t2.filename ++ bakSuffix) = none := by
      intro t2 ht2
      have hne1 : ¬ t2.filename ++ bakSuffix = t.filename := by
        intro h
        rw [← h] at htsome
        rw [hbaks t2 (List.mem_cons_of_mem t ht2)] at htsome
        exact absurd htsome (by simp)
      have hne2 : ¬ t2.filename ++ bakSuffix = t.filename ++ bakSuffix := by
        intro h
        exact hheadpair t2 ht2 (List.append_cancel_right h).symm
      rw [hardlink_frame master t oracle fs ctr _ hne1 hne2]
      exact hbaks t2 (List.mem_cons_of_mem t ht2)
    have hmne2 : ∀ t2 ∈ rest, ¬ master.filename = t2.filename :=
      fun t2 ht2 => hmne t2 (List.mem_cons_of_mem t ht2)
    have hfull2 : ∀ e ∈ (runTargets master false oracle rest
        (hardlink master t false oracle fs ctr).fs
        (hardlink master t false oracle fs ctr).ctr).log, e.2.2 = true := by
      intro e he
      exact hfull e (by rw [hlog]; exact List.mem_cons_of_mem _ he)
    obtain ⟨ih1, ih2⟩ := ih (hardlink master t false oracle fs ctr).fs
      (hardlink master t false oracle fs ctr).ctr hm2 hbaks2 hmne2 hpair2 hfull2
    constructor
    · intro t2 ht2
      rw [List.mem_cons] at ht2
      rcases ht2 with rfl | ht2
      · rw [hfinal]
        rw [ih2 t2.filename ?hn ?hb]
        · exact hta
        case hn =>
          intro t3 ht3
          exact hheadpair t3 ht3
        case hb =>
          intro t3 ht3
          intro h
          rw [h, hbaks2 t3 ht3] at hta
          exact absurd hta (by simp)
      · exact ih1 t2 ht2
    · intro p hpn hpb
      rw [hfinal]
      rw [ih2 p (fun t3 ht3 => hpn t3 (List.mem_cons_of_mem t ht3))
        (fun t3 ht3 => hpb t3 (List.mem_cons_of_mem t ht3))]
      rw [hardlink_frame master t oracle fs ctr p
        (hpn t (List.mem_cons_self t rest)) (hpb t (List.mem_cons_self t rest))]

theorem consolidationTargets_ino {files : List FileInfo} {mi : Nat} {t : FileInfo}
    (ht : t ∈ consolidationTargets files mi) : t.stat.st_ino ≠ mi := by
  rw [consolidationTargets, List.mem_flatten] at ht
  obtain ⟨b, hb, htb⟩ := ht
  rw [List.mem_map] at hb
  obtain ⟨⟨k, b2⟩, hkb, rfl⟩ := hb
  rw [List.mem_filter] at hkb
  have hkey := (group_by_bucket_mem hkb.1 htb).1
  have hkne : k ≠ mi := by simpa using hkb.2
  rw [hkey]
  exact hkne

theorem mem_consolidationTargets {files : List FileInfo} {mi : Nat} {f : FileInfo}
    (hf : f ∈ files) (hne : f.stat.st_ino ≠ mi) : f ∈ consolidationTargets files mi := by
  obtain ⟨b, hb, hfb⟩ := group_by_cover (fun f => f.stat.st_ino) hf
  rw [consolidationTargets, List.mem_flatten]
  refine ⟨b, ?_, hfb⟩
  rw [List.mem_map]
  refine ⟨(f.stat.st_ino, b), ?_, rfl⟩
  rw [List.mem_filter]
  exact ⟨hb, by simpa using hne⟩

theorem consolidationTargets_nodup {files : List FileInfo} {mi : Nat}
    (hnd : files.Nodup) : (consolidationTargets files mi).Nodup := by
  rw [consolidationTargets, List.nodup_flatten]
  constructor
  · intro l hl
    rw [List.mem_map] at hl
    obtain ⟨⟨k, b⟩, hkb, rfl⟩ := hl
    obtain ⟨rfl, -⟩ := group_by_mem.mp (List.mem_of_mem_filter hkb)
    exact List.Nodup.filter _ hnd
  · rw [List.pairwise_map]
    have hkeys : List.Pairwise (fun (ab cd : (Nat × List FileInfo)) => ab.1 ≠ cd.1)
        (group_by files (fun f => f.stat.st_ino)) := by
      have h1 : (keysOf (group_by files (fun f => f.stat.st_ino))).Nodup :=
        nodup_keysOf_group_by files _
      rw [keysOf] at h1
      rw [List.Nodup] at h1
      exact List.pairwise_map.mp h1
    have hkeysf := List.Pairwise.filter
      (fun kv => decide (kv.1 ≠ mi)) hkeys
    refine List.Pairwise.imp_of_mem ?_ hkeysf
    intro ab cd hab hcd hne
    obtain ⟨hab2, -⟩ := group_by_mem.mp (List.mem_of_mem_filter hab)
    obtain ⟨hcd2, -⟩ := group_by_mem.mp (List.mem_of_mem_filter hcd)
    intro x hx1 hx2
    rw [hab2, List.mem_filter] at hx1
    rw [hcd2, List.mem_filter] at hx2
    exact hne (by
      have e1 : x.stat.st_ino = ab.1 := by simpa using hx1.2
      have e2 : x.stat.st_ino = cd.1 := by simpa using hx2.2
      rw [← e1, ← e2])

/-- With pairwise-distinct filenames, distinct members of the target list
have distinct filenames. -/
theorem consolidationTargets_pairwise {files : List FileInfo} {mi : Nat}
    (hnd : (files.map (fun f => f.filename)).Nodup) :
    List.Pairwise (fun (a b : FileInfo) => ¬ a.filename = b.filename)
      (consolidationTargets files mi) := by
  have hinj := List.inj_on_of_nodup_map hnd
  have hnodup : (consolidationTargets files mi).Nodup :=
    consolidationTargets_nodup (List.Nodup.of_map _ hnd)
  refine List.Pairwise.imp_of_mem ?_ hnodup
  intro a b ha hb hne heq
  exact hne (hinj (consolidationTargets_sub ha) (consolidationTargets_sub hb) heq)

/-- A fully successful within-device consolidation leaves every member's
path naming one common inode. -/
theorem mhd_success_all_master (files : List FileInfo) (oracle : Nat → Bool) (fs : FS)
    (ctr : Nat)
    (hconsist : ∀ f ∈ files, alookup fs.names f.filename = some f.stat.st_ino)
    (hbaks : ∀ f ∈ files, alookup fs.names (f.filename ++ bakSuffix) = none)
    (hnd : (files.map (fun f => f.filename)).Nodup)
    (hfull : ∀ e ∈ (make_hardlinks_within_device files false oracle fs ctr).log,
      e.2.2 = true) :
    ∃ i_m, ∀ f ∈ files,
      alookup (make_hardlinks_within_device files false oracle fs ctr).fs.names
        f.filename = some i_m := by
  have hinj := List.inj_on_of_nodup_map hnd
  by_cases hlen : (group_by files (fun f => f.stat.st_ino)).length ≤ 1
  · have hfs : (make_hardlinks_within_device files false oracle fs ctr).fs = fs := by
      unfold make_hardlinks_within_device
      rw [if_pos hlen]
    rw [hfs]
    match files, hconsist, hlen with
    | [], _, _ => exact ⟨0, fun f hf => absurd hf (List.not_mem_nil f)⟩
    | f0 :: rest, hconsist, hlen =>
      refine ⟨f0.stat.st_ino, fun f hf => ?_⟩
      rw [hconsist f hf]
      have := group_by_le_one_all_same hlen f hf f0 (List.mem_cons_self f0 rest)
      rw [this]
  · cases hmax : pyMaxNlink files with
    | none =>
      match files, hmax, hlen with
      | [], _, hlen => exact absurd (by simp [group_by, upsertFold]) hlen
    | some master =>
      have hrun : make_hardlinks_within_device files false oracle fs ctr =
          runTargets master false oracle
            (consolidationTargets files master.stat.st_ino) fs ctr := by
        unfold make_hardlinks_within_device
        rw [if_neg hlen, hmax]
      have hmmem := pyMaxNlink_mem hmax
      have hm : alookup fs.names master.filename = some master.stat.st_ino :=
        hconsist master hmmem
      have hbaks2 : ∀ t ∈ consolidationTargets files master.stat.st_ino,
          alookup fs.names (t.filename ++ bakSuffix) = none :=
        fun t ht => hbaks t (consolidationTargets_sub ht)
      have hmne : ∀ t ∈ consolidationTargets files master.stat.st_ino,
          ¬ master.filename = t.filename := by
        intro t ht heq
        have : master = t := hinj hmmem (consolidationTargets_sub ht) heq
        exact consolidationTargets_ino ht (by rw [← this])
      have hfull2 : ∀ e ∈ (runTargets master false oracle
          (consolidationTargets files master.stat.st_ino) fs ctr).log, e.2.2 = true := by
        intro e he
        exact hfull e (by rw [hrun]; exact he)
      obtain ⟨h1, h2⟩ := runTargets_success_relink master oracle
        (consolidationTargets files master.stat.st_ino) fs ctr master.stat.st_ino
        hm hbaks2 hmne (consolidationTargets_pairwise hnd) hfull2
      refine ⟨master.stat.st_ino, fun f hf => ?_⟩
      rw [hrun]
      by_cases hino : f.stat.st_ino = master.stat.st_ino
      · have hfn : ∀ t ∈ consolidationTargets files master.stat.st_ino,
            ¬ f.filename = t.filename := by
          intro t ht heq
          have : f = t := hinj hf (consolidationTargets_sub ht) heq
          exact consolidationTargets_ino ht (by rw [← this, hino])
        have hfb : ∀ t ∈ consolidationTargets files master.stat.st_ino,
            ¬ f.filename = t.filename ++ bakSuffix := by
          intro t ht heq
          have := hconsist f hf
          rw [heq, hbaks2 t ht] at this
          exact absurd this (by simp)
        rw [h2 f.filename hfn hfb, hconsist f hf, hino]
      · exact h1 f (mem_consolidationTargets hf hino)

/-- A device partition whose members already share one inode is left
untouched: zero bytes, no operations, no state change. -/
theorem mhd_one_inode (files : List FileInfo) (dry_run : Bool) (oracle : Nat → Bool)
    (fs : FS) (ctr : Nat)
    (hsame : ∀ f ∈ files, ∀ g ∈ files, f.stat.st_ino = g.stat.st_ino) :
    make_hardlinks_within_device files dry_run oracle fs ctr =
      ⟨0, fs, ctr, [], [], [], none⟩ := by
  have hlen : (group_by files (fun f => f.stat.st_ino)).length ≤ 1 := by
    match files, hsame with
    | [], _ => simp [group_by, upsertFold]
    | f0 :: rest, hsame =>
      exact group_by_all_same
        (fun f hf => hsame f hf f0 (List.mem_cons_self f0 rest))
  unfold make_hardlinks_within_device
  rw [if_pos hlen]

/-- C7: consolidation is idempotent.  First, a device partition whose
members already share a single inode is not touched at all: zero byte
count, no filesystem operations, no diagnostics.  Second, after a fully
successful consolidation run on a well-formed filesystem, refreshed
records of the group's paths all carry one common inode, so a second run
performs no mutation and returns zero additional bytes. -/
theorem claim_C7 (files files2 : List FileInfo) (dry1 dry2 : Bool)
    (oracle oracle2 : Nat → Bool) (fs fs2 : FS) (ctr ctr2 : Nat) :
    ((∀ f ∈ files, ∀ g ∈ files, f.stat.st_ino = g.stat.st_ino) →
      make_hardlinks_within_device files dry1 oracle fs ctr =
        ⟨0, fs, ctr, [], [], [], none⟩) ∧
    ((∀ f ∈ files, alookup fs.names f.filename = some f.stat.st_ino) →
      (∀ f ∈ files, alookup fs.names (f.filename ++ bakSuffix) = none) →
      (files.map (fun f => f.filename)).Nodup →
      (∀ e ∈ (make_hardlinks_within_device files false oracle fs ctr).log,
        e.2.2 = true) →
      (∀ f2 ∈ files2, ∃ f ∈ files, f2.filename = f.filename ∧
        alookup (make_hardlinks_within_device files false oracle fs ctr).fs.names
          f2.filename = some f2.stat.st_ino) →
      make_hardlinks_within_device files2 dry2 oracle2 fs2 ctr2 =
        ⟨0, fs2, ctr2, [], [], [], none⟩) := by
  constructor
  · intro hsame
    exact mhd_one_inode files dry1 oracle fs ctr hsame
  · intro h1 h2 h3 h4 h5
    obtain ⟨i_m, hall⟩ := mhd_success_all_master files oracle fs ctr h1 h2 h3 h4
    refine mhd_one_inode files2 dry2 oracle2 fs2 ctr2 ?_
    have hino : ∀ f2 ∈ files2, f2.stat.st_ino = i_m := by
      intro f2 hf2
      obtain ⟨f, hfm, hfn, hfl⟩ := h5 f2 hf2
      rw [hfn] at hfl
      rw [hall f hfm] at hfl
      exact (Option.some.inj hfl).symm
    intro f2 hf2 g2 hg2
    rw [hino f2 hf2, hino g2 hg2]

/-- C7 witness: an already-consolidated pair is untouched, and refreshed
records after a fully successful run yield a zero, operation-free second
run. -/
theorem claim_C7_witness :
    make_hardlinks_within_device [exG1, exG2] false oracleT exFs 0 =
      ⟨0, exFs, 0, [], [], [], none⟩ ∧
    make_hardlinks_within_device [exF1, exF2b] false oracleT exFs 5 =
      ⟨0, exFs, 5, [], [], [], none⟩ := by
  constructor
  · exact (claim_C7 [exG1, exG2] [] false false oracleT oracleT exFs exFs 0 0).1
      (by decide)
  · exact (claim_C7 [exF1, exF2] [exF1, exF2b] false false oracleT oracleT
      exFs exFs 0 5).2 (by decide) (by decide) (by decide) (by decide) (by decide)
